import Mathlib

/-!
# Verification of `optimize_images_paths.py` (image variant resolution and markup rewriting)

This file is a shallow embedding, in Lean 4, of the core of
`dev/assets/python/libs/optimize_images_paths.py`: the variant resolver
(`find_image_variants`), the priority ranker (`get_optimal_image_info`), the
path-hash normalization (`get_image_hash`), and the three dialect rewriters
(`replace_img` for HTML/PHP, the PUG block processor, `replace_url` for
SCSS/CSS).

Modelling conventions:
* Python strings are modelled as `List Char` (`Str`); string literals are
  converted with `String.toList` at the boundary.
* The filesystem is a read-only oracle `FS : PyPath → Option Nat` mapping the
  lexical dev-relative form of a path to the size in bytes of an existing file
  (`none` = the path does not exist).  The script only ever probes existence
  and size, both read-only.
* `pathlib.Path` (POSIX flavour) is modelled by `PyPath`: a count of leading
  slashes (0, 1, or the special POSIX `//` root 2) plus the list of path
  components, where parsing drops empty and `"."` components exactly as
  `pathlib` does.  On POSIX `str(path)` contains forward slashes only, so the
  script's `.replace('\\', '/')` calls are identity; they are kept in the
  model (`slashFix`) for faithfulness.
* `float('inf')` (size of a synthesized, non-existing variant) is modelled as
  `none : Option Nat`, with the order `sizeLeB` placing it above every finite
  size, matching IEEE comparison of `inf` used by Python's sort.
* Python's `list.sort` / `sorted` are stable; they are modelled by the stable
  insertion sort `isortLe` below.
* The MD5 digest (from `hashlib`, outside this repository) is kept abstract:
  functions that embed the hash take an arbitrary digest function
  `md5 : Str → Str` and apply it to exactly the normalized string the source
  passes to `hashlib.md5`.
-/

abbrev Str := List Char

/-- The character set of `lstrip('./')`: Python strips every leading
character belonging to the set `{'.', '/'}`. -/
def dotSlash (c : Char) : Bool := c = '.' || c = '/'

/-- `s.lstrip('./')`: drop all leading `'.'` and `'/'` characters. -/
def pyLstripDotSlash (s : Str) : Str := s.dropWhile dotSlash

/-- `s.replace('\\', '/')`: single-character replacement. -/
def slashFix (s : Str) : Str := s.map (fun c => if c = '\\' then '/' else c)

/-- Whitespace for `str.rstrip()` / `str.lstrip()` with no argument and for
the regex class `\s` (the common cases; exotic unicode spaces do not occur in
the sources processed). -/
def isWs (c : Char) : Bool := c = ' ' || c = '\t' || c = '\n' || c = '\r' || c = '\x0b' || c = '\x0c'

/-- `s.rstrip()`: drop trailing whitespace. -/
def pyRstrip (s : Str) : Str := (s.reverse.dropWhile isWs).reverse

/-- `len(s) - len(s.lstrip())`: the count of leading whitespace characters. -/
def leadingWsCount (s : Str) : Nat := (s.takeWhile isWs).length

/-- Splitting a string at `'/'` (every occurrence, keeping empty segments),
as `pathlib` does when parsing a path string. -/
def splitSlash : Str → List Str
  | [] => [[]]
  | ch :: rest =>
    match splitSlash rest with
    | [] => [[]]
    | seg :: segs => if ch = '/' then [] :: seg :: segs else (ch :: seg) :: segs

/-- Joining components with `'/'`. -/
def joinSlash : List Str → Str
  | [] => []
  | [c] => c
  | c :: cs => c ++ '/' :: joinSlash cs

/-- A parsed `pathlib.PurePosixPath`: `absPre` is the number of leading
slashes kept by `pathlib` (0 = relative, 1 = `/`-rooted, 2 = the special
POSIX `//` root), and `comps` the components after dropping empty and `"."`
segments (pathlib keeps `".."`). -/
structure PyPath where
  absPre : Nat
  comps : List Str
deriving DecidableEq

/-- Number of leading `'/'` characters. -/
def leadSlashes (s : Str) : Nat := (s.takeWhile (fun c => c = '/')).length

/-- `pathlib`'s root detection: exactly two leading slashes give the special
`//` root; one, or three or more, give `/`. -/
def absPreOf (s : Str) : Nat :=
  let n := leadSlashes s
  if n = 2 then 2 else if 1 ≤ n then 1 else 0

/-- The components `pathlib` keeps: every slash-separated segment that is
neither empty nor `"."`. -/
def cleanComps (s : Str) : List Str :=
  (splitSlash s).filter (fun seg => seg ≠ [] && seg ≠ ['.'])

/-- `Path(s)` on POSIX. -/
def parsePath (s : Str) : PyPath := ⟨absPreOf s, cleanComps s⟩

/-- `str(path)` on POSIX for the paths this model constructs (never applied
to an empty relative path, for which pathlib would print `"."`). -/
def renderPath (p : PyPath) : Str :=
  List.replicate p.absPre '/' ++ joinSlash p.comps

/-- `path.parent`: drop the last component (identity on `.` and on roots). -/
def PyPath.parent (p : PyPath) : PyPath := ⟨p.absPre, p.comps.dropLast⟩

/-- `path.name`: the final component, `""` if there is none. -/
def PyPath.name (p : PyPath) : Str := (p.comps.getLast?).getD []

/-- `pathlib`'s suffix of a file name: `name[i:]` for `i` the index of the
last dot, provided `0 < i < len(name) - 1`; otherwise `""`. -/
def nameSuffix (n : Str) : Str :=
  let t := n.reverse.takeWhile (fun c => c ≠ '.')
  if t.length + 1 < n.length && 1 ≤ t.length then '.' :: t.reverse else []

/-- `pathlib`'s stem: the name with `nameSuffix` removed. -/
def nameStem (n : Str) : Str := n.take (n.length - (nameSuffix n).length)

/-- `path.suffix`. -/
def PyPath.suffix (p : PyPath) : Str := nameSuffix p.name

/-- `path.stem`. -/
def PyPath.stem (p : PyPath) : Str := nameStem p.name

/-- `path / c` for a single clean component `c` (the only shape of argument
the script ever passes: `'webp'`, `'avif'`, or `stem + '.' + fmt`). -/
def PyPath.child (p : PyPath) (c : Str) : PyPath := ⟨p.absPre, p.comps ++ [c]⟩

/-- Substring test, modelling Python's `in` on strings. -/
def hasInfix (pat : Str) : Str → Bool
  | [] => pat.isPrefixOf []
  | s@(_ :: rest) => pat.isPrefixOf s || hasInfix pat rest

/-- Membership of a single character, modelling `c in s`. -/
def hasChar (c : Char) (s : Str) : Bool := s.contains c

/-- Case-insensitive suffix test, modelling `s.lower().endswith(pat)` for a
lowercase pattern. -/
def endsWithCI (s pat : Str) : Bool := pat.isSuffixOf (s.map Char.toLower)

/-- One step of `str.replace`: bounded by fuel, which callers set to the
length of the subject string (enough, since every replacement consumes at
least one character of the subject when the pattern is nonempty). -/
def pyReplaceAux (pat rep : Str) : Nat → Str → Str
  | 0, s => s
  | _ + 1, [] => []
  | fuel + 1, s@(ch :: rest) =>
    if pat.isPrefixOf s then rep ++ pyReplaceAux pat rep fuel (s.drop pat.length)
    else ch :: pyReplaceAux pat rep fuel rest

/-- `s.replace(pat, rep)` replacing every non-overlapping occurrence, left to
right.  (Python's behaviour for an empty pattern never arises in the script:
the patterns are matched image paths and literal punctuation.) -/
def pyReplace (s pat rep : Str) : Str :=
  if pat = [] then s else pyReplaceAux pat rep s.length s

/-- `str(n)` for a natural number. -/
def natToStr (n : Nat) : Str := Nat.toDigits 10 n

/-- `int(s)` for the digit strings the script produces. -/
def strToNat (s : Str) : Nat := s.foldl (fun a c => a * 10 + (c.toNat - '0'.toNat)) 0

/-! ## Stable sorting

Python's `sorted` / `list.sort` are stable.  `isortLe le l` is insertion sort
with `le` a total preorder test (`le a b` = "a may come no later than b"); it
produces the unique stable `le`-ascending reordering, which is what Python
produces for the corresponding key function. -/

/-- Insert `a` before the first element `b` with `le a b`. -/
def insertLe (le : α → α → Bool) (a : α) : List α → List α
  | [] => [a]
  | b :: l => if le a b then a :: b :: l else b :: insertLe le a l

/-- Stable insertion sort. -/
def isortLe (le : α → α → Bool) : List α → List α
  | [] => []
  | a :: l => insertLe le a (isortLe le l)

/-! ## The data model of the script -/

/-- The known image formats: the dictionary keys `'original'`, `'webp'`,
`'avif'` used by `find_image_variants` and `get_optimal_image_info`. -/
inductive Fmt
  | original
  | webp
  | avif
deriving DecidableEq

/-- The Python string naming a format. -/
def fmtName : Fmt → Str
  | .original => "original".toList
  | .webp => "webp".toList
  | .avif => "avif".toList

/-- The filesystem oracle: maps the lexical dev-relative form of a path to
`some size` when a file exists there, `none` otherwise.  `find_image_variants`
only reads existence (`Path.exists`) and size (`stat().st_size`). -/
def FS := PyPath → Option Nat

/-- One entry of the `variants` dictionary of `find_image_variants`:
`(format, path-as-stored, size-in-bytes)`, in insertion order. -/
abbrev VariantEntry := Fmt × Str × Nat

/-- The dev-relative path probed for a sibling format: `parent/fmt/stem.fmt`
next to the (cleaned) original, exactly `parent_dir / format_name /
f"{filename_without_ext}.{format_name}"` made relative to `dev`. -/
def probePath (p : PyPath) (fmt : Str) : PyPath :=
  (p.parent.child fmt).child (p.stem ++ '.' :: fmt)

/-- One probe of `find_image_variants`: if the sibling file exists, a
single-entry list carrying its dev-relative path (rendered with forward
slashes, as `str(...).replace('\\', '/')` produces) and its size. -/
def probeVariant (fs : FS) (p : PyPath) (f : Fmt) : List VariantEntry :=
  let fp := probePath p (fmtName f)
  match fs fp with
  | some s => [(f, slashFix (renderPath fp), s)]
  | none => []

/-- `find_image_variants(image_path)`.

The original reference is stripped of leading `'.'`/`'/'` characters
(`lstrip('./')`) and resolved under the project `dev` root; if no file is
there the result is the empty dictionary.  Otherwise the entry `'original'`
stores the *raw* input path with the file's size, and each of `webp`, `avif`
is probed at `parent/<fmt>/<stem>.<fmt>`.  When the cleaned path has no
components the sibling directories fall outside the `dev` root, so
`relative_to` raises `ValueError` and the format is dropped (the `except`
branch), leaving only the original entry. -/
def findImageVariants (fs : FS) (imagePath : Str) : List VariantEntry :=
  let clean := pyLstripDotSlash imagePath
  let p := parsePath clean
  match fs p with
  | none => []
  | some sz =>
    (Fmt.original, imagePath, sz) ::
      (if p.comps = [] then []
       else probeVariant fs p .webp ++ probeVariant fs p .avif)

/-- An element of the `all_formats` list of `get_optimal_image_info`:
`{'name': …, 'path': …, 'size': …, 'exists': …}` with `none` modelling
`float('inf')`. -/
structure FormatInfo where
  fmt : Fmt
  path : Str
  size : Option Nat
  exi : Bool
deriving DecidableEq

/-- The comparison `x <= y` on sizes where `none` is `float('inf')`. -/
def sizeLeB : Option Nat → Option Nat → Bool
  | _, none => true
  | none, some _ => false
  | some n, some m => n ≤ m

/-- The sort key `(not x['exists'], x['size'])` compared lexicographically,
as Python compares tuples. -/
def keyLe (a b : FormatInfo) : Bool :=
  if (!a.exi) = (!b.exi) then sizeLeB a.size b.size
  else !(!a.exi) && (!b.exi)

/-- Association-list lookup, modelling `dict.get` for the variants map. -/
def variantsGet (variants : List VariantEntry) (f : Fmt) : Option (Str × Nat) :=
  (variants.find? (fun e => e.1 = f)).map (·.2)

/-- `f in variants` for the variants dictionary. -/
def variantsHas (variants : List VariantEntry) (f : Fmt) : Bool :=
  (variants.find? (fun e => e.1 = f)).isSome

/-- The potential (synthesized) path for a missing format, built from the
original reference via `pathlib`:
`str(Path(original_path).parent / fmt / f"{stem}.{fmt}").replace('\\','/')`. -/
def potentialFormatPath (originalPath : Str) (fmt : Str) : Str :=
  let pp := parsePath originalPath
  slashFix (renderPath ((pp.parent.child fmt).child (pp.stem ++ '.' :: fmt)))

/-- One per-format entry of the ranked outcome, as recorded in both the
`data_attributes` dictionary and the JSON `formats` mapping:
path, 1-based priority, existence flag, and size (`none` both for the JSON
`null` of a synthesized entry and, in `FormatInfo`, for `float('inf')`). -/
structure RankedFormat where
  fmt : Fmt
  src : Str
  priority : Nat
  exi : Bool
  size : Option Nat
deriving DecidableEq

/-- Priorities `1, 2, …` assigned positionally to the sorted format list. -/
def assignPriorities (l : List FormatInfo) : List RankedFormat :=
  l.enum.map (fun (i, f) =>
    { fmt := f.fmt, src := f.path, priority := i + 1, exi := f.exi
      size := if f.exi then f.size else none })

/-- The attribute name `f"data-{format_name}-src"`. -/
def srcAttrName (f : Fmt) : Str := "data-".toList ++ fmtName f ++ "-src".toList

/-- The attribute name `f"data-{format_name}-priority"`. -/
def priAttrName (f : Fmt) : Str := "data-".toList ++ fmtName f ++ "-priority".toList

/-- The `data_attributes` entries contributed by the ranked formats, in the
dictionary's insertion order (per format: src then priority). -/
def rankedPairs (rs : List RankedFormat) : List (Str × Str) :=
  rs.flatMap (fun e => [(srcAttrName e.fmt, e.src), (priAttrName e.fmt, natToStr e.priority)])

/-- The normalized string `get_image_hash` feeds to `hashlib.md5`:
`image_path.lstrip('./').replace('\\', '/')`. -/
def getImageHashInput (imagePath : Str) : Str := slashFix (pyLstripDotSlash imagePath)

/-- The result of `get_optimal_image_info`: the chosen `main_src`, the
`data_attributes` dictionary (insertion order preserved), the ranked
per-format breakdown backing both the attributes and the JSON `formats`
mapping, and the JSON record fields.  When the variants dictionary has no
truthy `'original'` path the `if original_path:` block is skipped and
`ranked`, `dataAttributes` stay empty, as in the source. -/
structure OptimalInfo where
  mainSrc : Str
  origExt : Str
  dataAttributes : List (Str × Str)
  ranked : List RankedFormat
  jsonHash : Str
  origPathFixed : Str
deriving DecidableEq

/-- The comparison `sorted(variants.items(), key=lambda x: x[1][1])` uses:
ascending by size (all sizes of discovered variants are finite). -/
def sizeVarLe (a b : VariantEntry) : Bool := sizeLeB (some a.2.2) (some b.2.2)

/-- The `all_formats` list of `get_optimal_image_info`: the existing variants
in dictionary order with `exists=True`, then a synthesized webp entry when
absent, then a synthesized avif entry when absent (insertion order preserved
for the later stable sort). -/
def allFormatsOf (variants : List VariantEntry) (originalPath : Str) : List FormatInfo :=
  variants.map (fun e => { fmt := e.1, path := e.2.1, size := some e.2.2, exi := true })
    ++ (if variantsHas variants .webp then []
        else [{ fmt := .webp, path := potentialFormatPath originalPath "webp".toList
                size := none, exi := false }])
    ++ (if variantsHas variants .avif then []
        else [{ fmt := .avif, path := potentialFormatPath originalPath "avif".toList
                size := none, exi := false }])

/-- `get_optimal_image_info(variants, image_path)`.

`none` models the empty-dictionary result for empty input.  Otherwise the
existing variants are sorted (stably) by size and the smallest becomes
`main_src`; potential webp/avif paths are synthesized from the original path
for the formats not present; the merged list is sorted (stably) by
`(not exists, size)` and priorities `1..N` are assigned in that order.
`md5` is the abstract digest of `hashlib.md5(...).hexdigest()`. -/
def getOptimalImageInfo (md5 : Str → Str) (variants : List VariantEntry) : Option OptimalInfo :=
  match variants with
  | [] => none
  | v :: vs =>
    let sortedVariants := isortLe sizeVarLe (v :: vs)
    let mainSrc := (sortedVariants.headD v).2.1
    let originalPath := ((variantsGet (v :: vs) .original).getD ([], 0)).1
    if originalPath = [] then
      some { mainSrc := mainSrc, origExt := [], dataAttributes := []
             ranked := [], jsonHash := md5 (getImageHashInput [])
             origPathFixed := [] }
    else
      let origExt := ((parsePath originalPath).suffix).dropWhile (fun c => c = '.')
      let ranked := assignPriorities (isortLe keyLe (allFormatsOf (v :: vs) originalPath))
      some { mainSrc := mainSrc
             origExt := origExt
             dataAttributes :=
               ("data-original-ext".toList, origExt) :: rankedPairs ranked
             ranked := ranked
             jsonHash := md5 (getImageHashInput originalPath)
             origPathFixed := slashFix originalPath }

/-- Resolution followed by ranking, as every rewriter performs it. -/
def optimalOfRef (md5 : Str → Str) (fs : FS) (imagePath : Str) : Option OptimalInfo :=
  getOptimalImageInfo md5 (findImageVariants fs imagePath)

/-! ## Persistence modes -/

/-- `self.save_mode`: one of `'data_attributes'`, `'json'`, `'both'`
(`unset` models the initial `None`). -/
inductive SaveMode
  | dataAttrs
  | json
  | both
  | unset
deriving DecidableEq

/-- The run configuration relevant to the rewriters: the save mode and the
`save_hash_in_attribute` flag. -/
structure Mode where
  saveMode : SaveMode
  saveHashInAttribute : Bool
deriving DecidableEq

/-- `should_add_data_attributes()`: `save_mode in ['data_attributes', 'both']`. -/
def shouldAddDataAttributes (m : Mode) : Bool :=
  m.saveMode = SaveMode.dataAttrs || m.saveMode = SaveMode.both

/-- `should_save_json()`: `save_mode in ['json', 'both']`. -/
def shouldSaveJson (m : Mode) : Bool :=
  m.saveMode = SaveMode.json || m.saveMode = SaveMode.both

/-! ## The attribute ordering used by the HTML and PUG writers -/

/-- The key computed by `sort_attrs` for one `(attr_name, attr_value)` item:
priority attributes get `(int(value), 1)`, src attributes get
`(int(corresponding priority value or '999'), 0)`, everything else `(0, 2)`.
The dictionary is consulted for the src lookup, so the key takes the whole
attribute list. -/
def attrSortKey (dataAttrs : List (Str × Str)) (item : Str × Str) : Nat × Nat :=
  if hasInfix "-priority".toList item.1 then (strToNat item.2, 1)
  else if hasInfix "-src".toList item.1 then
    let formatName := pyReplace (pyReplace item.1 "data-".toList []) "-src".toList []
    let priorityKey := "data-".toList ++ formatName ++ "-priority".toList
    let priorityVal := ((dataAttrs.find? (fun kv => kv.1 = priorityKey)).map (·.2)).getD "999".toList
    (strToNat priorityVal, 0)
  else (0, 2)

/-- Lexicographic comparison of the `(Nat, Nat)` sort keys, as Python
compares tuples. -/
def pairLe (a b : Nat × Nat) : Bool :=
  if a.1 = b.1 then a.2 ≤ b.2 else a.1 ≤ b.1

/-- `sorted(data_attrs.items(), key=sort_attrs)`. -/
def sortAttrs (dataAttrs : List (Str × Str)) : List (Str × Str) :=
  isortLe (fun x y => pairLe (attrSortKey dataAttrs x) (attrSortKey dataAttrs y)) dataAttrs

/-- The full marker list a rewritten HTML element receives, in the order the
source emits it: the `data-image-hash` attribute first when JSON saving and
hash embedding are both on, then the `sort_attrs`-sorted data attributes when
inline annotating is on (lines 297-327 of the source). -/
def htmlMarkers (m : Mode) (info : OptimalInfo) : List (Str × Str) :=
  (if shouldSaveJson m && m.saveHashInAttribute
   then [("data-image-hash".toList, info.jsonHash)] else [])
    ++ (if shouldAddDataAttributes m then sortAttrs info.dataAttributes else [])

/-! ## The HTML/PHP rewriter (`replace_img` inside `process_html_php_file`)

The callback is modelled per regex match: the captured groups
(`before_src`, the image path, `after_src`) and the whole matched tag are
inputs; the indentation the source derives from the text before the match is
a parameter `attrIndent`. -/

/-- Try to match the stripped-attribute pattern
`\s+data-(webp|avif|original)-(src|priority|ext)=["'][^"']*["']` at the head
of `s`; on success return the remainder after the match. -/
def matchDataAttrAt (s : Str) : Option Str :=
  let ws := s.takeWhile isWs
  if ws = [] then none else
  let t1 := s.drop ws.length
  if ("data-".toList).isPrefixOf t1 then
    let t2 := t1.drop 5
    let fmtOpt :=
      if ("webp-".toList).isPrefixOf t2 then some (t2.drop 5)
      else if ("avif-".toList).isPrefixOf t2 then some (t2.drop 5)
      else if ("original-".toList).isPrefixOf t2 then some (t2.drop 9)
      else none
    match fmtOpt with
    | none => none
    | some t3 =>
      let kindOpt :=
        if ("src=".toList).isPrefixOf t3 then some (t3.drop 4)
        else if ("priority=".toList).isPrefixOf t3 then some (t3.drop 9)
        else if ("ext=".toList).isPrefixOf t3 then some (t3.drop 4)
        else none
      match kindOpt with
      | none => none
      | some t4 =>
        match t4 with
        | [] => none
        | q :: t5 =>
          if q = '"' || q = '\'' then
            (let content := t5.takeWhile (fun c => c ≠ '"' && c ≠ '\'')
             match t5.drop content.length with
             | q2 :: t6 => if q2 = '"' || q2 = '\'' then some t6 else none
             | [] => none)
          else none
  else none

/-- `re.sub(r'\s+data-(webp|avif|original)-(src|priority|ext)=["\'][^"\']*["\']', '', s)`:
delete every match, scanning left to right (fuel = length of the subject;
every match consumes at least one character). -/
def stripDataAttrsAux : Nat → Str → Str
  | 0, s => s
  | _ + 1, [] => []
  | fuel + 1, s@(ch :: rest) =>
    match matchDataAttrAt s with
    | some t => stripDataAttrsAux fuel t
    | none => ch :: stripDataAttrsAux fuel rest

/-- The data-attribute-stripping substitution applied to `before_src` and
`after_src`. -/
def stripDataAttrs (s : Str) : Str := stripDataAttrsAux s.length s

/-- `replace_img(match)`, the rewriting callback for one matched `<img>` tag.

Inputs mirror the regex groups: `fullTag` = `match.group(0)`, `beforeSrc` =
group 1, `imagePath` = group 2, `afterSrc` = group 4.  `attrIndent` models
`attr_indent` (base indentation of the line plus four spaces), which the
source derives from the text preceding the match. -/
def replaceImg (md5 : Str → Str) (fs : FS) (m : Mode)
    (fullTag beforeSrc imagePath afterSrc attrIndent : Str) : Str :=
  if endsWithCI imagePath ".svg".toList then fullTag
  else if shouldAddDataAttributes m &&
      (hasInfix "data-webp-src=".toList fullTag ||
       hasInfix "data-avif-src=".toList fullTag ||
       hasInfix "data-original-src=".toList fullTag) then fullTag
  else
    match optimalOfRef md5 fs imagePath with
    | none => fullTag
    | some info =>
      if !shouldAddDataAttributes m then pyReplace fullTag imagePath info.mainSrc
      else
        let beforeStripped := stripDataAttrs beforeSrc
        let afterStripped := stripDataAttrs afterSrc
        let base := "<img".toList ++ beforeStripped ++ "src=\"".toList ++ info.mainSrc
          ++ ['"'] ++ afterStripped
        let markerLines := (htmlMarkers m info).flatMap
          (fun kv => '\n' :: attrIndent ++ kv.1 ++ '=' :: '"' :: slashFix kv.2 ++ ['"'])
        base ++ markerLines ++ ['>']

/-! ## The SCSS/CSS rewriter (`replace_url` inside `process_scss_css_file`) -/

/-- `replace_url(match)`: `fullMatch` = `match.group(0)` (the whole `url(…)`
occurrence), `imagePath` = group 1. -/
def replaceUrl (md5 : Str → Str) (fs : FS) (fullMatch imagePath : Str) : Str :=
  if endsWithCI imagePath ".svg".toList then fullMatch
  else
    match optimalOfRef md5 fs imagePath with
    | none => fullMatch
    | some info => pyReplace fullMatch imagePath info.mainSrc

/-! ## The PUG rewriter (`process_pug_file`)

The per-file loop scans lines; a line containing `img(` opens a block that
extends forward until a line matching the `src` pattern or a line containing
`)` (whichever comes first).  A found `src` path triggers the same
resolve/rank pipeline, an in-block path replacement, and—depending on the
mode—an attribute splice before the closing parenthesis. -/

/-- The raster extensions of the `src` pattern
`(jpg|jpeg|png|gif|webp|avif|bmp|tiff)`. -/
def rasterExts : List Str :=
  (["jpg", "jpeg", "png", "gif", "webp", "avif", "bmp", "tiff"] : List String).map
    String.toList

/-- Whether a captured path ends in `.<ext>` for a raster extension,
case-insensitively, with a nonempty base before the dot (the regex requires
`[^"\']+` before `\.`). -/
def hasRasterExt (s : Str) : Bool :=
  rasterExts.any (fun e =>
    ('.' :: e).isSuffixOf (s.map Char.toLower) && ('.' :: e).length < s.length)

/-- Try the pattern `src=["\']([^"\']+\.(jpg|…|tiff))["\']` (compiled with
`re.IGNORECASE`) at the head of `s`; on success return group 1.  The quoted
content is the maximal run of non-quote characters, which matches iff it ends
in a raster extension and is immediately followed by a quote of either
kind. -/
def trySrcAt (s : Str) : Option Str :=
  if ("src=".toList).isPrefixOf ((s.take 4).map Char.toLower) then
    match s.drop 4 with
    | [] => none
    | q :: t =>
      if q = '"' || q = '\'' then
        (let content := t.takeWhile (fun c => c ≠ '"' && c ≠ '\'')
         match t.drop content.length with
         | q2 :: _ =>
           if (q2 = '"' || q2 = '\'') && hasRasterExt content then some content else none
         | [] => none)
      else none
  else none

/-- `re.search(src_pattern, line, re.IGNORECASE)`: the leftmost match. -/
def findSrc : Str → Option Str
  | [] => none
  | s@(_ :: rest) =>
    match trySrcAt s with
    | some p => some p
    | none => findSrc rest

/-- `'\n'.join(lines)`. -/
def joinLines : List Str → Str
  | [] => []
  | [l] => l
  | l :: ls => l ++ '\n' :: joinLines ls

/-- The forward scan for `src` after the `img(` line: append each line to the
block, stop (keeping the stopping line in the block) when `src` matches or
when the line contains `)`.  Returns the block, the remaining lines, and the
captured path if any. -/
def pugGatherAux : List Str → List Str → List Str × List Str × Option Str
  | acc, [] => (acc, [], none)
  | acc, cur :: rest =>
    match findSrc cur with
    | some p => (acc ++ [cur], rest, some p)
    | none =>
      if hasChar ')' cur then (acc ++ [cur], rest, none)
      else pugGatherAux (acc ++ [cur]) rest

/-- Block collection starting at a line containing `img(`: if `src` is on
that line the block is the single line; otherwise scan forward. -/
def pugGather (line : Str) (rest : List Str) : List Str × List Str × Option Str :=
  match findSrc line with
  | some p => ([line], rest, some p)
  | none => pugGatherAux [line] rest

/-- `attrs_to_add` of the PUG writer: the `data-image-hash` attribute when
JSON saving and hash embedding are both on, then the sorted data attributes
when inline annotating is on (lines 425-451 of the source). -/
def pugAttrsToAdd (m : Mode) (info : OptimalInfo) : List (Str × Str) :=
  (if shouldSaveJson m && m.saveHashInAttribute
   then [("data-image-hash".toList, info.jsonHash)] else [])
    ++ (if shouldAddDataAttributes m then sortAttrs info.dataAttributes else [])

/-- The attribute splice: find the first block line containing `)`, strip the
parenthesis characters from it, append one indented line per attribute
(values slash-normalized) and a re-indented closing parenthesis, discarding
any block lines after the parenthesis line (`img_block_lines[:k+1] +
attrs_lines` in the source). -/
def spliceAttrs (block : List Str) (attrs : List (Str × Str)) : List Str :=
  match block.findIdx? (fun l => hasChar ')' l) with
  | none => block
  | some k =>
    let ai := List.replicate (leadingWsCount (block.headD []) + 12) ' '
    let lineK := pyRstrip (pyReplace (block.getD k []) ")".toList [])
    let attrsLines := attrs.map (fun kv => ai ++ kv.1 ++ '=' :: '"' :: slashFix kv.2 ++ ['"'])
    (block.take k ++ [lineK]) ++ attrsLines ++ [ai ++ [')']]

/-- Processing of one collected block whose `src` captured `imagePath`
(lines 392-479 of the source): idempotency guard, SVG skip, resolution,
in-block path replacement, and the mode-dependent attribute splice. -/
def pugProcessBlock (md5 : Str → Str) (fs : FS) (m : Mode)
    (block : List Str) (imagePath : Str) : List Str :=
  let fullBlock := joinLines block
  if shouldAddDataAttributes m &&
      (hasInfix "data-webp-src=".toList fullBlock ||
       hasInfix "data-avif-src=".toList fullBlock ||
       hasInfix "data-original-src=".toList fullBlock) then block
  else if endsWithCI imagePath ".svg".toList then block
  else
    match optimalOfRef md5 fs imagePath with
    | none => block
    | some info =>
      let block1 := block.map (fun l => pyReplace l imagePath info.mainSrc)
      if !shouldAddDataAttributes m && !shouldSaveJson m then block1
      else
        let attrs := pugAttrsToAdd m info
        if attrs = [] then block1
        else spliceAttrs block1 attrs

/-- The line loop of `process_pug_file`, with fuel bounding the number of
iterations.  Each iteration consumes at least one input line, so fuel equal
to the number of lines (as `processPugLines` passes) never runs out. -/
def processPugAux (md5 : Str → Str) (fs : FS) (m : Mode) : Nat → List Str → List Str
  | 0, ls => ls
  | _ + 1, [] => []
  | fuel + 1, line :: rest =>
    if hasInfix "img(".toList line then
      let g := pugGather line rest
      let out :=
        match g.2.2 with
        | none => g.1
        | some p => pugProcessBlock md5 fs m g.1 p
      out ++ processPugAux md5 fs m fuel g.2.1
    else line :: processPugAux md5 fs m fuel rest

/-- `process_pug_file` on the list of lines of the file (the source splits on
`'\n'`, processes, and re-joins). -/
def processPugLines (md5 : Str → Str) (fs : FS) (m : Mode) (ls : List Str) : List Str :=
  processPugAux md5 fs m ls.length ls

/-! ## Concrete scenario fixtures

Filesystems for the spec's concrete scenarios, a placeholder digest function
for closed counterexamples (the divergences exhibited do not depend on the
digest's value), and the claim-described hash normalization for comparison
with the source's. -/

/-- Scenario A: `img/photo.jpg` of 50000 bytes with a webp sibling
`img/webp/photo.webp` of 30000 bytes and no avif sibling. -/
def fsA : FS := fun p =>
  if p = parsePath "img/photo.jpg".toList then some 50000
  else if p = parsePath "img/webp/photo.webp".toList then some 30000
  else none

/-- Scenario B: only the original `img/photo.jpg` of 50000 bytes exists. -/
def fsB : FS := fun p =>
  if p = parsePath "img/photo.jpg".toList then some 50000 else none

/-- A placeholder digest standing in for `hashlib.md5(...).hexdigest()` in
closed statements; every property exhibited with it holds for an arbitrary
digest function. -/
def idDigest : Str → Str := fun s => s

/-- Modelled from the claim wording (not from the source, for comparison):
normalization that removes exactly one leading `"./"` prefix and replaces
backslashes with forward slashes. -/
def claimHashNormalize (p : Str) : Str :=
  slashFix (if ("./".toList).isPrefixOf p then p.drop 2 else p)

/-! ## Basic lemmas about the string and path model -/

theorem splitSlash_ne_nil (s : Str) : splitSlash s ≠ [] := by
  cases s with
  | nil => simp [splitSlash]
  | cons ch rest =>
    simp only [splitSlash]
    cases h : splitSlash rest with
    | nil => simp
    | cons seg segs =>
      by_cases hc : ch = '/' <;> simp [hc]

theorem mem_of_mem_splitSlash {s : Str} {seg : Str} {c : Char}
    (hseg : seg ∈ splitSlash s) (hc : c ∈ seg) : c ∈ s := by
  induction s generalizing seg with
  | nil =>
    simp [splitSlash] at hseg
    subst hseg
    simp at hc
  | cons ch rest ih =>
    simp only [splitSlash] at hseg
    cases h : splitSlash rest with
    | nil => exact absurd h (splitSlash_ne_nil rest)
    | cons seg0 segs =>
      rw [h] at hseg
      by_cases hch : ch = '/'
      · simp [hch] at hseg
        rcases hseg with hseg | hseg | hseg
        · subst hseg; simp at hc
        · subst hseg
          exact List.mem_cons_of_mem _ (ih (by rw [h]; exact List.mem_cons_self _ _) hc)
        · exact List.mem_cons_of_mem _ (ih (by rw [h]; exact List.mem_cons_of_mem _ hseg) hc)
      · simp [hch] at hseg
        rcases hseg with hseg | hseg
        · subst hseg
          rcases List.mem_cons.mp hc with hc | hc
          · exact hc ▸ List.mem_cons_self _ _
          · exact List.mem_cons_of_mem _ (ih (by rw [h]; exact List.mem_cons_self _ _) hc)
        · exact List.mem_cons_of_mem _ (ih (by rw [h]; exact List.mem_cons_of_mem _ hseg) hc)

theorem no_slash_of_mem_splitSlash {s : Str} {seg : Str}
    (hseg : seg ∈ splitSlash s) : '/' ∉ seg := by
  induction s generalizing seg with
  | nil =>
    simp [splitSlash] at hseg
    subst hseg; simp
  | cons ch rest ih =>
    simp only [splitSlash] at hseg
    cases h : splitSlash rest with
    | nil => exact absurd h (splitSlash_ne_nil rest)
    | cons seg0 segs =>
      rw [h] at hseg
      by_cases hch : ch = '/'
      · simp [hch] at hseg
        rcases hseg with hseg | hseg | hseg
        · subst hseg; simp
        · exact hseg ▸ ih (by rw [h]; exact List.mem_cons_self _ _)
        · exact ih (by rw [h]; exact List.mem_cons_of_mem _ hseg)
      · simp [hch] at hseg
        rcases hseg with hseg | hseg
        · subst hseg
          intro hmem
          rcases List.mem_cons.mp hmem with hq | hq
          · exact hch hq.symm
          · exact ih (by rw [h]; exact List.mem_cons_self _ _) hq
        · exact ih (by rw [h]; exact List.mem_cons_of_mem _ hseg)

theorem splitSlash_slash_cons (s : Str) : splitSlash ('/' :: s) = [] :: splitSlash s := by
  simp only [splitSlash]
  cases h : splitSlash s with
  | nil => exact absurd h (splitSlash_ne_nil s)
  | cons seg segs => simp

theorem splitSlash_cons_no_slash {ch : Char} (hch : ch ≠ '/') (s : Str) :
    splitSlash (ch :: s) = (ch :: (splitSlash s).headD []) :: (splitSlash s).tail := by
  simp only [splitSlash]
  cases h : splitSlash s with
  | nil => exact absurd h (splitSlash_ne_nil s)
  | cons seg segs => simp [hch]

theorem splitSlash_append_no_slash {c : Str} (hc : '/' ∉ c) (s : Str) :
    splitSlash (c ++ s) = (c ++ (splitSlash s).headD []) :: (splitSlash s).tail := by
  induction c with
  | nil =>
    simp only [List.nil_append]
    cases h : splitSlash s with
    | nil => exact absurd h (splitSlash_ne_nil s)
    | cons seg segs => simp
  | cons ch c' ih =>
    have hch : ch ≠ '/' := fun h => hc (h ▸ List.mem_cons_self _ _)
    have hc' : '/' ∉ c' := fun h => hc (List.mem_cons_of_mem _ h)
    rw [List.cons_append, splitSlash_cons_no_slash hch, ih hc']
    simp

theorem splitSlash_join_roundtrip {cs : List Str} (hne : cs ≠ [])
    (hcs : ∀ c ∈ cs, '/' ∉ c) : splitSlash (joinSlash cs) = cs := by
  induction cs with
  | nil => exact absurd rfl hne
  | cons c cs' ih =>
    cases cs' with
    | nil =>
      simp only [joinSlash]
      have : splitSlash c = [c ++ []] := by
        have := splitSlash_append_no_slash (hcs c (List.mem_cons_self _ _)) ([] : Str)
        simpa [splitSlash] using this
      simpa using this
    | cons d ds =>
      have hjoin : joinSlash (c :: d :: ds) = c ++ '/' :: joinSlash (d :: ds) := rfl
      rw [hjoin, splitSlash_append_no_slash (hcs c (List.mem_cons_self _ _)),
        splitSlash_slash_cons, ih (by simp) (fun x hx => hcs x (List.mem_cons_of_mem _ hx))]
      simp

theorem cleanComps_slash_cons (s : Str) : cleanComps ('/' :: s) = cleanComps s := by
  simp [cleanComps, splitSlash_slash_cons]

theorem cleanComps_replicate_append (a : Nat) (s : Str) :
    cleanComps (List.replicate a '/' ++ s) = cleanComps s := by
  induction a with
  | zero => simp
  | succ n ih => simpa [List.replicate_succ, cleanComps_slash_cons] using ih

theorem mem_cleanComps_props {s : Str} {c : Str} (h : c ∈ cleanComps s) :
    c ≠ [] ∧ c ≠ ['.'] ∧ '/' ∉ c := by
  have hmem := List.mem_of_mem_filter h
  have hprop := List.of_mem_filter h
  simp only [Bool.and_eq_true, decide_eq_true_eq, ne_eq] at hprop
  exact ⟨by simpa using hprop.1, by simpa using hprop.2, no_slash_of_mem_splitSlash hmem⟩

theorem mem_of_mem_cleanComps {s : Str} {c : Str} {x : Char}
    (h : c ∈ cleanComps s) (hx : x ∈ c) : x ∈ s :=
  mem_of_mem_splitSlash (List.mem_of_mem_filter h) hx

theorem leadSlashes_cons_no_slash {ch : Char} (hch : ch ≠ '/') (s : Str) :
    leadSlashes (ch :: s) = 0 := by
  simp [leadSlashes, List.takeWhile_cons, hch]

theorem absPreOf_cons_no_slash {ch : Char} (hch : ch ≠ '/') (s : Str) :
    absPreOf (ch :: s) = 0 := by
  simp [absPreOf, leadSlashes_cons_no_slash hch]

theorem absPreOf_le_two (s : Str) : absPreOf s ≤ 2 := by
  simp only [absPreOf]
  split_ifs <;> omega

theorem joinSlash_clean_head {c : Str} (cs : List Str) :
    ∃ t, joinSlash (c :: cs) = c ++ t := by
  cases cs with
  | nil => exact ⟨[], by simp [joinSlash]⟩
  | cons d ds => exact ⟨'/' :: joinSlash (d :: ds), rfl⟩

theorem leadSlashes_replicate_append {s : Str} (a : Nat)
    (hs : ∀ x, s.head? = some x → x ≠ '/') : leadSlashes (List.replicate a '/' ++ s) = a := by
  induction a with
  | zero =>
    simp only [List.replicate_zero, List.nil_append]
    cases s with
    | nil => simp [leadSlashes]
    | cons x t => simp [leadSlashes, List.takeWhile_cons, hs x rfl]
  | succ n ih =>
    simp only [List.replicate_succ, List.cons_append]
    have hstep : leadSlashes ('/' :: (List.replicate n '/' ++ s)) =
        leadSlashes (List.replicate n '/' ++ s) + 1 := by
      simp [leadSlashes, List.takeWhile_cons]
    rw [hstep, ih]

theorem parsePath_renderPath_roundtrip (a : Nat) (cs : List Str) (ha : a ≤ 2)
    (hcs : ∀ c ∈ cs, c ≠ [] ∧ c ≠ ['.'] ∧ '/' ∉ c) :
    parsePath (renderPath ⟨a, cs⟩) = ⟨a, cs⟩ := by
  have hcomps : cleanComps (renderPath ⟨a, cs⟩) = cs := by
    unfold renderPath
    rw [cleanComps_replicate_append]
    cases cs with
    | nil => simp [cleanComps, splitSlash]
    | cons c cs' =>
      unfold cleanComps
      rw [splitSlash_join_roundtrip (by simp) (fun x hx => (hcs x hx).2.2)]
      rw [List.filter_eq_self.mpr]
      intro x hx
      have := hcs x hx
      simp [this.1, this.2.1]
  have habs : absPreOf (renderPath ⟨a, cs⟩) = a := by
    unfold renderPath absPreOf
    cases cs with
    | nil =>
      simp only [joinSlash, List.append_nil]
      have : leadSlashes (List.replicate a '/') = a := by
        simpa using leadSlashes_replicate_append (s := []) a (by intro x hx; simp at hx)
      rw [this]
      interval_cases a <;> simp
    | cons c cs' =>
      obtain ⟨t, ht⟩ := joinSlash_clean_head (c := c) cs'
      have hc := hcs c (List.mem_cons_self _ _)
      have hlead : leadSlashes (List.replicate a '/' ++ joinSlash (c :: cs')) = a := by
        apply leadSlashes_replicate_append
        intro x hx
        rw [ht] at hx
        cases c with
        | nil => exact absurd rfl hc.1
        | cons c0 crest =>
          simp at hx
          subst hx
          intro hq
          exact hc.2.2 (hq ▸ List.mem_cons_self _ _)
      rw [hlead]
      interval_cases a <;> simp
  unfold parsePath
  rw [hcomps, habs]

theorem renderPath_head_of_clean {c : Str} (cs : List Str) (hc : c ≠ []) :
    (renderPath ⟨0, c :: cs⟩).head? = c.head? := by
  obtain ⟨t, ht⟩ := joinSlash_clean_head (c := c) cs
  unfold renderPath
  simp only [List.replicate_zero, List.nil_append, ht]
  cases c with
  | nil => exact absurd rfl hc
  | cons c0 crest => simp

theorem joinSlash_end_ne_nil {es : List Str} {c : Str} (hc : c ≠ []) :
    joinSlash (es ++ [c]) ≠ [] := by
  cases es with
  | nil => simpa [joinSlash] using hc
  | cons e es' =>
    cases hjoin : es' ++ [c] with
    | nil => simp at hjoin
    | cons f fs =>
      have : joinSlash (e :: es' ++ [c]) = e ++ '/' :: joinSlash (es' ++ [c]) := by
        simp only [List.cons_append, hjoin]
        rfl
      simp only [this]
      simp

theorem joinSlash_getLast {cs : List Str} {c : Str} (hc : c ≠ []) :
    (joinSlash (cs ++ [c])).getLast? = c.getLast? := by
  induction cs with
  | nil => simp [joinSlash]
  | cons d ds ih =>
    cases hds : ds ++ [c] with
    | nil => simp at hds
    | cons e es =>
      have hjoin : joinSlash (d :: ds ++ [c]) = d ++ '/' :: joinSlash (ds ++ [c]) := by
        simp only [List.cons_append, hds]
        rfl
      rw [hjoin,
        List.getLast?_append_of_ne_nil d (by simp : ('/' :: joinSlash (ds ++ [c])) ≠ [])]
      rw [show ('/' :: joinSlash (ds ++ [c])) = ['/'] ++ joinSlash (ds ++ [c]) from rfl,
        List.getLast?_append_of_ne_nil ['/'] (joinSlash_end_ne_nil hc)]
      exact ih

theorem renderPath_getLast {a : Nat} {cs : List Str} {c : Str} (hc : c ≠ []) :
    (renderPath ⟨a, cs ++ [c]⟩).getLast? = c.getLast? := by
  show (List.replicate a '/' ++ joinSlash (cs ++ [c])).getLast? = c.getLast?
  rw [List.getLast?_append_of_ne_nil _ (joinSlash_end_ne_nil hc)]
  exact joinSlash_getLast hc

theorem nameSuffix_length_lt {n : Str} (hn : nameSuffix n ≠ []) :
    (nameSuffix n).length < n.length := by
  revert hn
  simp only [nameSuffix]
  split_ifs with h
  · intro _
    simp only [Bool.and_eq_true, decide_eq_true_eq] at h
    simp only [List.length_cons, List.length_reverse]
    omega
  · intro hn
    exact absurd rfl hn

theorem nameStem_ne_nil {n : Str} (hn : n ≠ []) : nameStem n ≠ [] := by
  unfold nameStem
  by_cases hsuf : nameSuffix n = []
  · simp only [hsuf, List.length_nil, Nat.sub_zero, List.take_length]
    exact hn
  · have hlt := nameSuffix_length_lt hsuf
    have : n.length - (nameSuffix n).length ≥ 1 := by omega
    intro htake
    have := congrArg List.length htake
    simp only [List.length_take, List.length_nil] at this
    omega

theorem mem_nameStem_subset {n : Str} {x : Char} (hx : x ∈ nameStem n) : x ∈ n :=
  List.take_subset _ _ hx

theorem dropWhile_head_false {p : Char → Bool} {s : Str} {x : Char} {xs : Str}
    (h : s.dropWhile p = x :: xs) : p x = false := by
  induction s with
  | nil => simp at h
  | cons a t ih =>
    rw [List.dropWhile_cons] at h
    by_cases hp : p a = true
    · rw [if_pos hp] at h
      exact ih h
    · rw [if_neg hp] at h
      cases h
      simpa using hp

theorem dropWhile_append_decomp (p : Char → Bool) (s : Str) :
    ∃ j, s = j ++ s.dropWhile p ∧ ∀ c ∈ j, p c = true := by
  refine ⟨s.takeWhile p, (List.takeWhile_append_dropWhile _ _).symm, ?_⟩
  intro c hc
  exact List.mem_takeWhile_imp hc

theorem slashFix_eq_self {s : Str} (hs : ∀ c ∈ s, c ≠ '\\') : slashFix s = s := by
  unfold slashFix
  rw [List.map_congr_left (g := id) (fun c hc => by simp [hs c hc]), List.map_id]

theorem mem_slashFix_ne_bslash {s : Str} {x : Char} (hx : x ∈ slashFix s) : x ≠ '\\' := by
  unfold slashFix at hx
  obtain ⟨c, _, hcx⟩ := List.mem_map.mp hx
  by_cases hc : c = '\\'
  · subst hc
    simp at hcx
    subst hcx
    decide
  · rw [if_neg hc] at hcx
    exact hcx ▸ hc

theorem slashFix_getLast? (s : Str) :
    (slashFix s).getLast? = s.getLast?.map (fun c => if c = '\\' then '/' else c) := by
  unfold slashFix
  exact List.getLast?_map _ s

theorem slashFix_head? (s : Str) :
    (slashFix s).head? = s.head?.map (fun c => if c = '\\' then '/' else c) := by
  unfold slashFix
  exact (List.head?_map _ s)

theorem mem_joinSlash {cs : List Str} {x : Char} (hx : x ∈ joinSlash cs) :
    x = '/' ∨ ∃ c ∈ cs, x ∈ c := by
  induction cs with
  | nil => simp [joinSlash] at hx
  | cons c cs' ih =>
    cases cs' with
    | nil =>
      simp only [joinSlash] at hx
      exact Or.inr ⟨c, List.mem_cons_self _ _, hx⟩
    | cons d ds =>
      have : joinSlash (c :: d :: ds) = c ++ '/' :: joinSlash (d :: ds) := rfl
      rw [this] at hx
      rcases List.mem_append.mp hx with hx | hx
      · exact Or.inr ⟨c, List.mem_cons_self _ _, hx⟩
      · rcases List.mem_cons.mp hx with hx | hx
        · exact Or.inl hx
        · rcases ih hx with hx | ⟨e, he, hxe⟩
          · exact Or.inl hx
          · exact Or.inr ⟨e, List.mem_cons_of_mem _ he, hxe⟩

theorem mem_renderPath {a : Nat} {cs : List Str} {x : Char}
    (hx : x ∈ renderPath ⟨a, cs⟩) : x = '/' ∨ ∃ c ∈ cs, x ∈ c := by
  unfold renderPath at hx
  rcases List.mem_append.mp hx with hx | hx
  · exact Or.inl (List.eq_of_mem_replicate hx)
  · exact mem_joinSlash hx

/-! ## Lemmas about the stable insertion sort -/

theorem insertLe_perm (le : α → α → Bool) (a : α) (l : List α) :
    (insertLe le a l).Perm (a :: l) := by
  induction l with
  | nil => simp [insertLe]
  | cons b t ih =>
    simp only [insertLe]
    by_cases h : le a b = true
    · rw [if_pos h]
    · rw [if_neg h]
      exact (ih.cons b).trans (List.Perm.swap a b t)

theorem isortLe_perm (le : α → α → Bool) (l : List α) : (isortLe le l).Perm l := by
  induction l with
  | nil => simp [isortLe]
  | cons a t ih =>
    exact (insertLe_perm le a (isortLe le t)).trans (List.Perm.cons a ih)

theorem isortLe_length (le : α → α → Bool) (l : List α) :
    (isortLe le l).length = l.length :=
  (isortLe_perm le l).length_eq

theorem mem_isortLe {le : α → α → Bool} {l : List α} {x : α}
    (hx : x ∈ isortLe le l) : x ∈ l :=
  (isortLe_perm le l).mem_iff.mp hx

theorem insertLe_append_sep (le : α → α → Bool) (a : α) (u v : List α)
    (hv : ∀ b ∈ v, le a b = true) :
    insertLe le a (u ++ v) = insertLe le a u ++ v := by
  induction u with
  | nil =>
    cases v with
    | nil => simp
    | cons b v' =>
      simp only [List.nil_append, insertLe]
      rw [if_pos (hv b (List.mem_cons_self _ _))]
      rfl
  | cons c u' ih =>
    simp only [List.cons_append, insertLe]
    by_cases h : le a c = true
    · rw [if_pos h, if_pos h]
      rfl
    · rw [if_neg h, if_neg h]
      show c :: insertLe le a (u' ++ v) = c :: (insertLe le a u' ++ v)
      rw [ih]

theorem isortLe_append_sep (le : α → α → Bool) (l₁ l₂ : List α)
    (hsep : ∀ a ∈ l₁, ∀ b ∈ l₂, le a b = true) :
    isortLe le (l₁ ++ l₂) = isortLe le l₁ ++ isortLe le l₂ := by
  induction l₁ with
  | nil => simp [isortLe]
  | cons a t ih =>
    simp only [List.cons_append, isortLe]
    show insertLe le a (isortLe le (t ++ l₂)) = insertLe le a (isortLe le t) ++ isortLe le l₂
    rw [ih (fun x hx => hsep x (List.mem_cons_of_mem _ hx))]
    exact insertLe_append_sep le a _ _ (fun b hb =>
      hsep a (List.mem_cons_self _ _) b (mem_isortLe hb))

theorem insertLe_map {le : α → α → Bool} {le' : β → β → Bool} (f : α → β)
    (hf : ∀ x y, le' (f x) (f y) = le x y) (a : α) (l : List α) :
    insertLe le' (f a) (l.map f) = (insertLe le a l).map f := by
  induction l with
  | nil => simp [insertLe]
  | cons b t ih =>
    simp only [List.map_cons, insertLe, hf]
    by_cases h : le a b = true
    · rw [if_pos h, if_pos h]
      simp
    · rw [if_neg h, if_neg h]
      simp [ih]

theorem isortLe_map {le : α → α → Bool} {le' : β → β → Bool} (f : α → β)
    (hf : ∀ x y, le' (f x) (f y) = le x y) (l : List α) :
    isortLe le' (l.map f) = (isortLe le l).map f := by
  induction l with
  | nil => simp [isortLe]
  | cons a t ih =>
    simp only [List.map_cons, isortLe]
    rw [ih, insertLe_map f hf]

theorem isortLe_chain_fix {le : α → α → Bool} {l : List α}
    (h : List.Chain' (fun x y => le x y = true) l) : isortLe le l = l := by
  induction l with
  | nil => simp [isortLe]
  | cons a t ih =>
    simp only [isortLe]
    rw [ih h.tail]
    cases t with
    | nil => simp [insertLe]
    | cons b t' =>
      simp only [insertLe]
      rw [if_pos (List.chain'_cons.mp h).1]

/-! ## Distinctness of the three per-format paths

The entries produced for one reference are the raw original path, a
webp-shaped path (probed or synthesized), and an avif-shaped path, and these
three strings are pairwise distinct.  These lemmas back the uniqueness part
of the ranking invariants. -/

theorem cleanComps_head {s : Str} {x : Char} (hx : s.head? = some x)
    (hds : dotSlash x = false) : ∃ t, cleanComps s = (x :: (splitSlash s.tail).headD []) :: t ∧
      ((x :: (splitSlash s.tail).headD []) : Str).head? = some x := by
  cases s with
  | nil => simp at hx
  | cons c rest =>
    have hcx : c = x := by simpa using hx
    have hds' : dotSlash c = false := by rw [hcx]; exact hds
    have hcslash : c ≠ '/' := by
      intro hq
      rw [hq] at hds'
      simp [dotSlash] at hds'
    have hcdot : c ≠ '.' := by
      intro hq
      rw [hq] at hds'
      simp [dotSlash] at hds'
    unfold cleanComps
    rw [splitSlash_cons_no_slash hcslash]
    rw [List.filter_cons_of_pos (by simp [hcdot])]
    subst hcx
    exact ⟨_, rfl, rfl⟩

theorem dropLast_head? {l : List Str} (h : l.dropLast ≠ []) :
    l.dropLast.head? = l.head? := by
  cases l with
  | nil => simp at h
  | cons c cs =>
    cases cs with
    | nil => simp at h
    | cons d ds => simp

theorem clean_head_not_dotSlash {r : Str} {x : Char}
    (hx : (pyLstripDotSlash r).head? = some x) : dotSlash x = false := by
  unfold pyLstripDotSlash at hx
  cases hdrop : r.dropWhile dotSlash with
  | nil => rw [hdrop] at hx; simp at hx
  | cons y ys =>
    rw [hdrop] at hx
    simp only [List.head?_cons, Option.some.injEq] at hx
    exact hx ▸ dropWhile_head_false hdrop

/-- Characters of the cleaned reference are characters of the reference. -/
theorem mem_clean_subset {r : Str} {x : Char} (hx : x ∈ pyLstripDotSlash r) : x ∈ r :=
  (List.dropWhile_sublist dotSlash).mem hx

/-- No character of a probed or synthesized path string is a backslash as
soon as the underlying components contain none; helper giving the membership
closure of such a render. -/
theorem render_member_closure {a : Nat} {K : List Str} {fm n' : Str} {x : Char}
    (hx : x ∈ renderPath ⟨a, K ++ [fm, n']⟩) :
    x = '/' ∨ (∃ c ∈ K, x ∈ c) ∨ x ∈ fm ∨ x ∈ n' := by
  rcases mem_renderPath hx with hx | ⟨c, hc, hxc⟩
  · exact Or.inl hx
  · rcases List.mem_append.mp hc with hc | hc
    · exact Or.inr (Or.inl ⟨c, hc, hxc⟩)
    · rcases List.mem_cons.mp hc with hc | hc
      · exact Or.inr (Or.inr (Or.inl (hc ▸ hxc)))
      · simp only [List.mem_singleton] at hc
        exact Or.inr (Or.inr (Or.inr (hc ▸ hxc)))

/-- The name of a parsed path contains no slash and no character outside the
parsed string. -/
theorem pyPathName_props (s : Str) :
    ('/' ∉ (parsePath s).name) ∧ (∀ x ∈ (parsePath s).name, x ∈ s) := by
  unfold PyPath.name
  cases hlast : (parsePath s).comps.getLast? with
  | none => simp
  | some n =>
    have hmem : n ∈ (parsePath s).comps := by
      obtain ⟨hne, heq⟩ := List.mem_getLast?_eq_getLast (l := (parsePath s).comps) (x := n)
        (by simp [hlast])
      exact heq ▸ List.getLast_mem hne
    have hprops := mem_cleanComps_props (s := s) hmem
    constructor
    · simpa using hprops.2.2
    · intro x hx
      simpa using mem_of_mem_cleanComps (s := s) hmem hx

/-- The stem of a parsed path contains no slash and no character outside the
parsed string. -/
theorem pyPathStem_props (s : Str) :
    ('/' ∉ (parsePath s).stem) ∧ (∀ x ∈ (parsePath s).stem, x ∈ s) := by
  have hname := pyPathName_props s
  unfold PyPath.stem
  constructor
  · intro hx
    exact hname.1 (mem_nameStem_subset hx)
  · intro x hx
    exact hname.2 x (mem_nameStem_subset hx)

theorem probe_render_no_bslash {s : Str} (hs : '\\' ∉ s) {fm : Str} (hfm : '\\' ∉ fm) :
    ∀ x ∈ renderPath (probePath (parsePath s) fm), x ≠ '\\' := by
  intro x hx
  unfold probePath PyPath.child PyPath.parent at hx
  simp only at hx
  rcases mem_renderPath hx with hx | ⟨c, hc, hxc⟩
  · rw [hx]; decide
  · rcases List.mem_append.mp hc with hc | hc
    · rcases List.mem_append.mp hc with hc | hc
      · intro hq
        exact hs (mem_of_mem_cleanComps (List.dropLast_subset _ hc) (hq ▸ hxc))
      · simp only [List.mem_singleton] at hc
        subst hc
        exact fun hq => hfm (hq ▸ hxc)
    · simp only [List.mem_singleton] at hc
      subst hc
      rcases List.mem_append.mp hxc with hxc | hxc
      · intro hq
        exact hs ((pyPathStem_props s).2 x hxc |> (hq ▸ ·))
      · rcases List.mem_cons.mp hxc with hxc | hxc
        · rw [hxc]; decide
        · exact fun hq => hfm (hq ▸ hxc)

theorem stemDotFmt_ne_nil (st fm : Str) : st ++ '.' :: fm ≠ [] := by
  cases st <;> simp

theorem stemDotFmt_props (s fm : Str) (hfm_ne : fm ≠ []) (hfm_noslash : '/' ∉ fm) :
    ((parsePath s).stem ++ '.' :: fm ≠ []) ∧ ((parsePath s).stem ++ '.' :: fm ≠ ['.']) ∧
      ('/' ∉ (parsePath s).stem ++ '.' :: fm) := by
  refine ⟨stemDotFmt_ne_nil _ _, ?_, ?_⟩
  · intro heq
    have hlen := congrArg List.length heq
    simp only [List.length_append, List.length_cons, List.length_nil] at hlen
    have hfmlen : 1 ≤ fm.length := List.length_pos.mpr hfm_ne
    omega
  · intro hx
    rcases List.mem_append.mp hx with hx | hx
    · exact (pyPathStem_props s).1 hx
    · rcases List.mem_cons.mp hx with hx | hx
      · exact absurd hx.symm (by decide)
      · exact hfm_noslash hx

/-- The raw reference string is never equal to the dev-relative path of a
probed sibling (`parent/<fmt>/<stem>.<fmt>` built from the cleaned
reference). -/
theorem orig_ne_probeStr (r : Str) (fm : Str)
    (hfm_ne : fm ≠ [])
    (hfm_head : ∀ y, fm.head? = some y → dotSlash y = false)
    (hfm_noslash : '/' ∉ fm)
    (hfm_nobs : '\\' ∉ fm)
    (hfm_nedot : fm ≠ ['.']) :
    r ≠ slashFix (renderPath (probePath (parsePath (pyLstripDotSlash r)) fm)) := by
  intro heq
  have hbsdisj : '\\' ∈ r ∨ '\\' ∉ r := em _
  rcases hbsdisj with hbs | hbs
  · have hmem : ('\\' : Char) ∈ slashFix (renderPath (probePath (parsePath (pyLstripDotSlash r)) fm)) :=
      heq ▸ hbs
    exact (mem_slashFix_ne_bslash hmem) rfl
  · have hsclean : '\\' ∉ pyLstripDotSlash r := fun hx => hbs (mem_clean_subset hx)
    have hfix : slashFix (renderPath (probePath (parsePath (pyLstripDotSlash r)) fm)) =
        renderPath (probePath (parsePath (pyLstripDotSlash r)) fm) :=
      slashFix_eq_self (probe_render_no_bslash hsclean hfm_nobs)
    rw [hfix] at heq
    have habs : (parsePath (pyLstripDotSlash r)).absPre = 0 := by
      cases hc : pyLstripDotSlash r with
      | nil => simp [parsePath, absPreOf, leadSlashes]
      | cons y ys =>
        have hy : dotSlash y = false := clean_head_not_dotSlash (by rw [hc]; rfl)
        have hyslash : y ≠ '/' := by
          intro hq
          rw [hq] at hy
          simp [dotSlash] at hy
        simp [parsePath, absPreOf_cons_no_slash hyslash]
    have hprobe : probePath (parsePath (pyLstripDotSlash r)) fm =
        ⟨(parsePath (pyLstripDotSlash r)).absPre,
          ((parsePath (pyLstripDotSlash r)).comps.dropLast ++ [fm]) ++
            [(parsePath (pyLstripDotSlash r)).stem ++ '.' :: fm]⟩ := rfl
    cases hr : r.head? with
    | none =>
      have hrnil : r = [] := List.head?_eq_none_iff.mp hr
      rw [hprobe] at heq
      rw [hrnil] at heq
      unfold renderPath at heq
      simp only at heq
      rcases List.append_eq_nil.mp heq.symm with ⟨-, hnil⟩
      exact joinSlash_end_ne_nil (stemDotFmt_ne_nil _ _) hnil
    | some x =>
      by_cases hxds : dotSlash x = true
      · -- the reference starts with a stripped character, the probe path never does
        rw [hprobe] at heq
        have hclean_ne : pyLstripDotSlash r ≠ [] ∨ pyLstripDotSlash r = [] := (em _).symm
        have hheadRHS : ∃ z, (renderPath ⟨(parsePath (pyLstripDotSlash r)).absPre,
            ((parsePath (pyLstripDotSlash r)).comps.dropLast ++ [fm]) ++
              [(parsePath (pyLstripDotSlash r)).stem ++ '.' :: fm]⟩).head? = some z ∧
            dotSlash z = false := by
          cases hK : (parsePath (pyLstripDotSlash r)).comps.dropLast with
          | nil =>
            cases hfm0 : fm.head? with
            | none => exact absurd (List.head?_eq_none_iff.mp hfm0) hfm_ne
            | some z =>
              refine ⟨z, ?_, hfm_head z hfm0⟩
              rw [habs]
              have hh := renderPath_head_of_clean (c := fm)
                [(parsePath (pyLstripDotSlash r)).stem ++ '.' :: fm] hfm_ne
              simpa [hfm0] using hh
          | cons k0 K' =>
            have hcompsne : (parsePath (pyLstripDotSlash r)).comps ≠ [] := by
              intro hq
              rw [hq] at hK
              simp at hK
            have hcleanne : pyLstripDotSlash r ≠ [] := by
              intro hq
              rw [hq] at hcompsne
              simp [parsePath, cleanComps, splitSlash] at hcompsne
            cases hcl : (pyLstripDotSlash r).head? with
            | none => exact absurd (List.head?_eq_none_iff.mp hcl) hcleanne
            | some y =>
              have hy : dotSlash y = false := clean_head_not_dotSlash hcl
              obtain ⟨t, hcc, hch⟩ := cleanComps_head hcl hy
              have hk0 : k0 = y :: (splitSlash (pyLstripDotSlash r).tail).headD [] := by
                have hdl : (parsePath (pyLstripDotSlash r)).comps.dropLast.head? =
                    (parsePath (pyLstripDotSlash r)).comps.head? :=
                  dropLast_head? (by rw [hK]; simp)
                rw [hK] at hdl
                have hcomps_eq : (parsePath (pyLstripDotSlash r)).comps =
                    (y :: (splitSlash (pyLstripDotSlash r).tail).headD []) :: t := hcc
                rw [hcomps_eq] at hdl
                simpa using hdl
              refine ⟨y, ?_, hy⟩
              rw [habs]
              have hk0ne : k0 ≠ [] := by rw [hk0]; simp
              have hh := renderPath_head_of_clean (c := k0)
                (K' ++ [fm] ++ [(parsePath (pyLstripDotSlash r)).stem ++ '.' :: fm])
                hk0ne
              have hk0h : k0.head? = some y := by rw [hk0]; rfl
              simpa [hk0h] using hh
        obtain ⟨z, hz, hzds⟩ := hheadRHS
        have : r.head? = some z := by rw [heq]; exact hz
        rw [hr] at this
        have : x = z := by simpa using this
        rw [this] at hxds
        rw [hzds] at hxds
        exact absurd hxds (by simp)
      · -- nothing is stripped: the reference is already clean
        have hxds' : dotSlash x = false := by
          cases hq : dotSlash x
          · rfl
          · exact absurd hq hxds
        have hclean_eq : pyLstripDotSlash r = r := by
          cases hrr : r with
          | nil => simp [pyLstripDotSlash]
          | cons c rest =>
            have : c = x := by
              rw [hrr] at hr
              simpa using hr
            subst this
            unfold pyLstripDotSlash
            rw [List.dropWhile_cons, if_neg (by rw [hxds']; simp)]
        rw [hprobe] at heq
        have hcompsK : ∀ c ∈ (parsePath (pyLstripDotSlash r)).comps.dropLast,
            c ≠ [] ∧ c ≠ ['.'] ∧ '/' ∉ c := by
          intro c hc
          exact mem_cleanComps_props (List.dropLast_subset _ hc)
        have hstem := stemDotFmt_props (pyLstripDotSlash r) fm hfm_ne hfm_noslash
        have hround := parsePath_renderPath_roundtrip
          ((parsePath (pyLstripDotSlash r)).absPre)
          (((parsePath (pyLstripDotSlash r)).comps.dropLast ++ [fm]) ++
            [(parsePath (pyLstripDotSlash r)).stem ++ '.' :: fm])
          (by rw [habs]; omega)
          (by
            intro c hc
            rcases List.mem_append.mp hc with hc | hc
            · rcases List.mem_append.mp hc with hc | hc
              · exact hcompsK c hc
              · simp only [List.mem_singleton] at hc
                subst hc
                exact ⟨hfm_ne, hfm_nedot, hfm_noslash⟩
            · simp only [List.mem_singleton] at hc
              subst hc
              exact hstem)
        rw [← heq] at hround
        rw [hclean_eq] at hround
        have hcomps_eq : (parsePath r).comps =
            ((parsePath r).comps.dropLast ++ [fm]) ++
              [(parsePath r).stem ++ '.' :: fm] := by
          conv_lhs => rw [hround]
        have hlen := congrArg List.length hcomps_eq
        simp only [List.length_append, List.length_dropLast, List.length_singleton] at hlen
        omega

theorem potential_render_no_bslash {r : Str} (hr : '\\' ∉ r) {fm : Str} (hfm : '\\' ∉ fm) :
    ∀ x ∈ renderPath (((parsePath r).parent.child fm).child ((parsePath r).stem ++ '.' :: fm)),
      x ≠ '\\' := by
  intro x hx
  unfold PyPath.child PyPath.parent at hx
  simp only at hx
  rcases mem_renderPath hx with hx | ⟨c, hc, hxc⟩
  · rw [hx]; decide
  · rcases List.mem_append.mp hc with hc | hc
    · rcases List.mem_append.mp hc with hc | hc
      · intro hq
        exact hr (mem_of_mem_cleanComps (List.dropLast_subset _ hc) (hq ▸ hxc))
      · simp only [List.mem_singleton] at hc
        subst hc
        exact fun hq => hfm (hq ▸ hxc)
    · simp only [List.mem_singleton] at hc
      subst hc
      rcases List.mem_append.mp hxc with hxc | hxc
      · intro hq
        exact hr ((pyPathStem_props r).2 x hxc |> (hq ▸ ·))
      · rcases List.mem_cons.mp hxc with hxc | hxc
        · rw [hxc]; decide
        · exact fun hq => hfm (hq ▸ hxc)

/-- The raw reference string is never equal to a synthesized
(`potential_webp` / `potential_avif`) path built from it. -/
theorem orig_ne_potential (r : Str) (fm : Str) (hfm_ne : fm ≠ [])
    (hfm_noslash : '/' ∉ fm) (hfm_nobs : '\\' ∉ fm) (hfm_nedot : fm ≠ ['.']) :
    r ≠ potentialFormatPath r fm := by
  intro heq
  rcases em ('\\' ∈ r) with hbs | hbs
  · have hmem : ('\\' : Char) ∈ potentialFormatPath r fm := heq ▸ hbs
    unfold potentialFormatPath at hmem
    exact (mem_slashFix_ne_bslash hmem) rfl
  · have hfix : potentialFormatPath r fm =
        renderPath (((parsePath r).parent.child fm).child ((parsePath r).stem ++ '.' :: fm)) := by
      unfold potentialFormatPath
      exact slashFix_eq_self (potential_render_no_bslash hbs hfm_nobs)
    rw [hfix] at heq
    have hstem := stemDotFmt_props r fm hfm_ne hfm_noslash
    have hround := parsePath_renderPath_roundtrip
      ((parsePath r).absPre)
      (((parsePath r).comps.dropLast ++ [fm]) ++ [(parsePath r).stem ++ '.' :: fm])
      (by
        have : (parsePath r).absPre = absPreOf r := rfl
        rw [this]
        exact absPreOf_le_two r)
      (by
        intro c hc
        rcases List.mem_append.mp hc with hc | hc
        · rcases List.mem_append.mp hc with hc | hc
          · exact mem_cleanComps_props (List.dropLast_subset _ hc)
          · simp only [List.mem_singleton] at hc
            subst hc
            exact ⟨hfm_ne, hfm_nedot, hfm_noslash⟩
        · simp only [List.mem_singleton] at hc
          subst hc
          exact hstem)
    have hchild : ((parsePath r).parent.child fm).child ((parsePath r).stem ++ '.' :: fm) =
        ⟨(parsePath r).absPre,
          ((parsePath r).comps.dropLast ++ [fm]) ++ [(parsePath r).stem ++ '.' :: fm]⟩ := rfl
    rw [hchild] at heq
    rw [← heq] at hround
    have hcomps_eq : (parsePath r).comps =
        ((parsePath r).comps.dropLast ++ [fm]) ++ [(parsePath r).stem ++ '.' :: fm] := by
      conv_lhs => rw [hround]
    have hlen := congrArg List.length hcomps_eq
    simp only [List.length_append, List.length_dropLast, List.length_singleton] at hlen
    omega

/-- A path whose final component ends in `.webp` is never equal to one whose
final component ends in `.avif`. -/
theorem webpShape_ne_avifShape (a₁ : Nat) (K₁ : List Str) (x₁ : Str)
    (a₂ : Nat) (K₂ : List Str) (x₂ : Str) :
    slashFix (renderPath ⟨a₁, K₁ ++ [x₁ ++ '.' :: "webp".toList]⟩) ≠
      slashFix (renderPath ⟨a₂, K₂ ++ [x₂ ++ '.' :: "avif".toList]⟩) := by
  intro heq
  have h₁ : (slashFix (renderPath ⟨a₁, K₁ ++ [x₁ ++ '.' :: "webp".toList]⟩)).getLast? =
      some 'p' := by
    rw [slashFix_getLast?, renderPath_getLast (stemDotFmt_ne_nil _ _)]
    rw [List.getLast?_append_of_ne_nil x₁ (by simp)]
    rfl
  have h₂ : (slashFix (renderPath ⟨a₂, K₂ ++ [x₂ ++ '.' :: "avif".toList]⟩)).getLast? =
      some 'f' := by
    rw [slashFix_getLast?, renderPath_getLast (stemDotFmt_ne_nil _ _)]
    rw [List.getLast?_append_of_ne_nil x₂ (by simp)]
    rfl
  rw [heq, h₂] at h₁
  exact absurd h₁ (by decide)

/-! ## Structure of the resolver output -/

theorem variantsGet_orig_cons (r : Str) (sz : Nat) (vs : List VariantEntry) :
    variantsGet ((Fmt.original, r, sz) :: vs) Fmt.original = some (r, sz) := by
  simp [variantsGet, List.find?]

/-- The five possible shapes of `find_image_variants` output: empty, or the
original entry followed by the probe results in fixed order (webp first). -/
theorem findImageVariants_shape (fs : FS) (r : Str) :
    findImageVariants fs r = [] ∨
    ∃ sz, fs (parsePath (pyLstripDotSlash r)) = some sz ∧
      (findImageVariants fs r = [(Fmt.original, r, sz)] ∨
       ((parsePath (pyLstripDotSlash r)).comps ≠ [] ∧
        ((∃ sw, fs (probePath (parsePath (pyLstripDotSlash r)) (fmtName .webp)) = some sw ∧
            fs (probePath (parsePath (pyLstripDotSlash r)) (fmtName .avif)) = none ∧
            findImageVariants fs r = [(Fmt.original, r, sz),
              (Fmt.webp, slashFix (renderPath (probePath (parsePath (pyLstripDotSlash r))
                (fmtName .webp))), sw)]) ∨
         (∃ sa, fs (probePath (parsePath (pyLstripDotSlash r)) (fmtName .webp)) = none ∧
            fs (probePath (parsePath (pyLstripDotSlash r)) (fmtName .avif)) = some sa ∧
            findImageVariants fs r = [(Fmt.original, r, sz),
              (Fmt.avif, slashFix (renderPath (probePath (parsePath (pyLstripDotSlash r))
                (fmtName .avif))), sa)]) ∨
         (∃ sw sa, fs (probePath (parsePath (pyLstripDotSlash r)) (fmtName .webp)) = some sw ∧
            fs (probePath (parsePath (pyLstripDotSlash r)) (fmtName .avif)) = some sa ∧
            findImageVariants fs r = [(Fmt.original, r, sz),
              (Fmt.webp, slashFix (renderPath (probePath (parsePath (pyLstripDotSlash r))
                (fmtName .webp))), sw),
              (Fmt.avif, slashFix (renderPath (probePath (parsePath (pyLstripDotSlash r))
                (fmtName .avif))), sa)])))) := by
  cases hfs : fs (parsePath (pyLstripDotSlash r)) with
  | none => exact Or.inl (by simp [findImageVariants, hfs])
  | some sz =>
    refine Or.inr ⟨sz, rfl, ?_⟩
    by_cases hcomps : (parsePath (pyLstripDotSlash r)).comps = []
    · exact Or.inl (by simp [findImageVariants, hfs, hcomps])
    · cases hw : fs (probePath (parsePath (pyLstripDotSlash r)) (fmtName .webp)) with
      | none =>
        cases ha : fs (probePath (parsePath (pyLstripDotSlash r)) (fmtName .avif)) with
        | none =>
          exact Or.inl (by simp [findImageVariants, hfs, hcomps, probeVariant, hw, ha])
        | some sa =>
          exact Or.inr ⟨hcomps, Or.inr (Or.inl ⟨sa, rfl, rfl,
            by simp [findImageVariants, hfs, hcomps, probeVariant, hw, ha]⟩)⟩
      | some sw =>
        cases ha : fs (probePath (parsePath (pyLstripDotSlash r)) (fmtName .avif)) with
        | none =>
          exact Or.inr ⟨hcomps, Or.inl ⟨sw, rfl, rfl,
            by simp [findImageVariants, hfs, hcomps, probeVariant, hw, ha]⟩⟩
        | some sa =>
          exact Or.inr ⟨hcomps, Or.inr (Or.inr ⟨sw, sa, rfl, rfl,
            by simp [findImageVariants, hfs, hcomps, probeVariant, hw, ha]⟩)⟩

/-- Unfolding of the ranker on a variants dictionary whose first entry is the
original with a nonempty path (the only shape the resolver produces). -/
theorem getOptimalImageInfo_cons (md5 : Str → Str) (r : Str) (sz : Nat)
    (vs : List VariantEntry) (hr : r ≠ []) :
    getOptimalImageInfo md5 ((Fmt.original, r, sz) :: vs) = some
      { mainSrc := ((isortLe sizeVarLe ((Fmt.original, r, sz) :: vs)).headD
          (Fmt.original, r, sz)).2.1
        origExt := ((parsePath r).suffix).dropWhile (fun c => c = '.')
        dataAttributes := ("data-original-ext".toList,
            ((parsePath r).suffix).dropWhile (fun c => c = '.')) ::
          rankedPairs (assignPriorities (isortLe keyLe
            (allFormatsOf ((Fmt.original, r, sz) :: vs) r)))
        ranked := assignPriorities (isortLe keyLe
          (allFormatsOf ((Fmt.original, r, sz) :: vs) r))
        jsonHash := md5 (getImageHashInput r)
        origPathFixed := slashFix r } := by
  unfold getOptimalImageInfo
  simp only [variantsGet_orig_cons, Option.getD_some]
  rw [if_neg hr]

/-! ## Structure of the ranked output -/

theorem assignPriorities_map_priority (l : List FormatInfo) :
    (assignPriorities l).map (fun e => e.priority) = (List.range l.length).map (fun i => i + 1) := by
  unfold assignPriorities
  rw [List.map_map]
  have : (fun e => RankedFormat.priority e) ∘
      (fun (p : Nat × FormatInfo) =>
        ({ fmt := p.2.fmt, src := p.2.path, priority := p.1 + 1, exi := p.2.exi
           size := if p.2.exi then p.2.size else none } : RankedFormat)) =
      (fun i => i + 1) ∘ Prod.fst := rfl
  rw [this, ← List.map_map, List.enum_map_fst]

theorem assignPriorities_map_src (l : List FormatInfo) :
    (assignPriorities l).map (fun e => e.src) = l.map (fun f => f.path) := by
  unfold assignPriorities
  rw [List.map_map]
  have : (fun e => RankedFormat.src e) ∘
      (fun (p : Nat × FormatInfo) =>
        ({ fmt := p.2.fmt, src := p.2.path, priority := p.1 + 1, exi := p.2.exi
           size := if p.2.exi then p.2.size else none } : RankedFormat)) =
      (fun f => f.path) ∘ Prod.snd := rfl
  rw [this, ← List.map_map, List.enum_map_snd]

theorem assignPriorities_map_fmt (l : List FormatInfo) :
    (assignPriorities l).map (fun e => e.fmt) = l.map (fun f => f.fmt) := by
  unfold assignPriorities
  rw [List.map_map]
  have : (fun e => RankedFormat.fmt e) ∘
      (fun (p : Nat × FormatInfo) =>
        ({ fmt := p.2.fmt, src := p.2.path, priority := p.1 + 1, exi := p.2.exi
           size := if p.2.exi then p.2.size else none } : RankedFormat)) =
      (fun f => f.fmt) ∘ Prod.snd := rfl
  rw [this, ← List.map_map, List.enum_map_snd]

theorem assignPriorities_head (x : FormatInfo) (l : List FormatInfo) :
    ∃ rest, assignPriorities (x :: l) =
      { fmt := x.fmt, src := x.path, priority := 1, exi := x.exi
        size := if x.exi then x.size else none } :: rest := by
  unfold assignPriorities
  rw [List.enum_cons]
  exact ⟨_, rfl⟩

theorem keyLe_exi_nonexi (a b : FormatInfo) (ha : a.exi = true) (hb : b.exi = false) :
    keyLe a b = true := by
  unfold keyLe
  rw [ha, hb]
  simp

theorem keyLe_toFI (x y : VariantEntry) :
    keyLe { fmt := x.1, path := x.2.1, size := some x.2.2, exi := true }
      { fmt := y.1, path := y.2.1, size := some y.2.2, exi := true } = sizeVarLe x y := by
  unfold keyLe sizeVarLe
  simp

/-- Separation of the sorted `all_formats` list: the stably sorted existing
variants form a prefix (in the order of the stable size sort of the variants
dictionary), followed by the synthesized entries. -/
theorem isort_allFormatsOf (variants : List VariantEntry) (op : Str) :
    ∃ tail, isortLe keyLe (allFormatsOf variants op) =
      (isortLe sizeVarLe variants).map
        (fun e => { fmt := e.1, path := e.2.1, size := some e.2.2, exi := true }) ++ tail ∧
      ∀ x ∈ tail, x.exi = false := by
  unfold allFormatsOf
  rw [List.append_assoc]
  set S := (if variantsHas variants Fmt.webp then []
      else [({ fmt := .webp, path := potentialFormatPath op "webp".toList
               size := none, exi := false } : FormatInfo)]) ++
    (if variantsHas variants Fmt.avif then []
      else [({ fmt := .avif, path := potentialFormatPath op "avif".toList
               size := none, exi := false } : FormatInfo)]) with hS
  have hSexi : ∀ x ∈ S, x.exi = false := by
    intro x hx
    rw [hS] at hx
    rcases List.mem_append.mp hx with hx | hx
    · split at hx
      · simp at hx
      · simp only [List.mem_singleton] at hx
        rw [hx]
    · split at hx
      · simp at hx
      · simp only [List.mem_singleton] at hx
        rw [hx]
  have hsep := isortLe_append_sep keyLe
    (variants.map (fun e => { fmt := e.1, path := e.2.1, size := some e.2.2, exi := true })) S
    (by
      intro a ha b hb
      obtain ⟨e, _, he⟩ := List.mem_map.mp ha
      exact keyLe_exi_nonexi a b (by rw [← he]) (hSexi b hb))
  rw [hsep]
  refine ⟨isortLe keyLe S, ?_, fun x hx => hSexi x (mem_isortLe hx)⟩
  rw [← @isortLe_map _ _ sizeVarLe keyLe
    (fun e : VariantEntry =>
      ({ fmt := e.1, path := e.2.1, size := some e.2.2, exi := true } : FormatInfo))
    (fun x y => keyLe_toFI x y) variants]

theorem allFormatsOf_shape1 (r : Str) (sz : Nat) :
    allFormatsOf [(Fmt.original, r, sz)] r =
      [{ fmt := .original, path := r, size := some sz, exi := true },
       { fmt := .webp, path := potentialFormatPath r "webp".toList, size := none, exi := false },
       { fmt := .avif, path := potentialFormatPath r "avif".toList, size := none, exi := false }] := by
  simp [allFormatsOf, variantsHas, List.find?]

theorem allFormatsOf_shape2 (r : Str) (sz : Nat) (pw : Str) (sw : Nat) :
    allFormatsOf [(Fmt.original, r, sz), (Fmt.webp, pw, sw)] r =
      [{ fmt := .original, path := r, size := some sz, exi := true },
       { fmt := .webp, path := pw, size := some sw, exi := true },
       { fmt := .avif, path := potentialFormatPath r "avif".toList, size := none, exi := false }] := by
  simp [allFormatsOf, variantsHas, List.find?]

theorem allFormatsOf_shape3 (r : Str) (sz : Nat) (pa : Str) (sa : Nat) :
    allFormatsOf [(Fmt.original, r, sz), (Fmt.avif, pa, sa)] r =
      [{ fmt := .original, path := r, size := some sz, exi := true },
       { fmt := .avif, path := pa, size := some sa, exi := true },
       { fmt := .webp, path := potentialFormatPath r "webp".toList, size := none, exi := false }] := by
  simp [allFormatsOf, variantsHas, List.find?]

theorem allFormatsOf_shape4 (r : Str) (sz : Nat) (pw : Str) (sw : Nat) (pa : Str) (sa : Nat) :
    allFormatsOf [(Fmt.original, r, sz), (Fmt.webp, pw, sw), (Fmt.avif, pa, sa)] r =
      [{ fmt := .original, path := r, size := some sz, exi := true },
       { fmt := .webp, path := pw, size := some sw, exi := true },
       { fmt := .avif, path := pa, size := some sa, exi := true }] := by
  simp [allFormatsOf, variantsHas, List.find?]

/-- Instances of the webp-vs-avif shape distinctness for the four
combinations of probed and synthesized paths. -/
theorem probe_webp_ne_probe_avif (p q : PyPath) :
    slashFix (renderPath (probePath p (fmtName .webp))) ≠
      slashFix (renderPath (probePath q (fmtName .avif))) :=
  webpShape_ne_avifShape _ _ _ _ _ _

theorem probe_webp_ne_potential_avif (p : PyPath) (r : Str) :
    slashFix (renderPath (probePath p (fmtName .webp))) ≠
      potentialFormatPath r "avif".toList :=
  webpShape_ne_avifShape _ _ _ _ _ _

theorem potential_webp_ne_probe_avif (r : Str) (q : PyPath) :
    potentialFormatPath r "webp".toList ≠
      slashFix (renderPath (probePath q (fmtName .avif))) :=
  webpShape_ne_avifShape _ _ _ _ _ _

theorem potential_webp_ne_potential_avif (r₁ r₂ : Str) :
    potentialFormatPath r₁ "webp".toList ≠ potentialFormatPath r₂ "avif".toList :=
  webpShape_ne_avifShape _ _ _ _ _ _

theorem orig_ne_probe_webp (r : Str) :
    r ≠ slashFix (renderPath (probePath (parsePath (pyLstripDotSlash r)) (fmtName .webp))) :=
  orig_ne_probeStr r (fmtName .webp) (by decide) (by decide) (by decide) (by decide) (by decide)

theorem orig_ne_probe_avif (r : Str) :
    r ≠ slashFix (renderPath (probePath (parsePath (pyLstripDotSlash r)) (fmtName .avif))) :=
  orig_ne_probeStr r (fmtName .avif) (by decide) (by decide) (by decide) (by decide) (by decide)

theorem orig_ne_potential_webp (r : Str) : r ≠ potentialFormatPath r "webp".toList :=
  orig_ne_potential r "webp".toList (by decide) (by decide) (by decide) (by decide)

theorem orig_ne_potential_avif (r : Str) : r ≠ potentialFormatPath r "avif".toList :=
  orig_ne_potential r "avif".toList (by decide) (by decide) (by decide) (by decide)

/-- The number of ranked entries whose path equals `m` is the number of
`all_formats` entries whose path equals `m`. -/
theorem ranked_count_main (l : List FormatInfo) (m : Str) :
    ((assignPriorities (isortLe keyLe l)).filter (fun e => e.src = m)).length =
      l.countP (fun f => f.path = m) := by
  rw [← List.countP_eq_length_filter]
  unfold assignPriorities
  rw [List.countP_map]
  have hcomp : ((fun (e : RankedFormat) => decide (e.src = m)) ∘
      (fun (p : Nat × FormatInfo) =>
        ({ fmt := p.2.fmt, src := p.2.path, priority := p.1 + 1, exi := p.2.exi
           size := if p.2.exi then p.2.size else none } : RankedFormat))) =
      ((fun (f : FormatInfo) => decide (f.path = m)) ∘ Prod.snd) := rfl
  rw [hcomp, ← List.countP_map, List.enum_map_snd]
  exact (isortLe_perm keyLe l).countP_eq _

theorem headD_mem {l : List VariantEntry} (hne : l ≠ []) (d : VariantEntry) :
    (isortLe sizeVarLe l).headD d ∈ l := by
  cases hs : isortLe sizeVarLe l with
  | nil =>
    have := isortLe_perm sizeVarLe l
    rw [hs] at this
    exact absurd this.symm.eq_nil hne
  | cons a t =>
    have ha : a ∈ isortLe sizeVarLe l := by
      rw [hs]
      exact List.mem_cons_self a t
    simpa using mem_isortLe ha

/-- The first ranked entry always has priority 1, an existing variant, and
the path chosen as `main_src`. -/
theorem ranked_head_generic (variants : List VariantEntry) (v : VariantEntry)
    (vs : List VariantEntry) (hvar : variants = v :: vs) (op : Str) :
    ∃ e rest, assignPriorities (isortLe keyLe (allFormatsOf variants op)) = e :: rest ∧
      e.priority = 1 ∧ e.exi = true ∧
      e.src = ((isortLe sizeVarLe variants).headD v).2.1 := by
  obtain ⟨tail, htail, _⟩ := isort_allFormatsOf variants op
  cases hs : isortLe sizeVarLe variants with
  | nil =>
    have hperm := isortLe_perm sizeVarLe variants
    rw [hs, hvar] at hperm
    simpa using hperm.symm.eq_nil
  | cons w0 ws =>
    rw [hs] at htail
    simp only [List.map_cons, List.cons_append] at htail
    rw [htail]
    obtain ⟨rest, hrest⟩ := assignPriorities_head _ _
    rw [hrest]
    exact ⟨_, rest, rfl, rfl, rfl, rfl⟩

/-- The bundled structural facts about a successful ranking: priorities are
exactly `[1, 2, 3]` positionally, exactly one entry carries the main path,
the first entry has priority 1 and is an existing variant carrying the main
path, and the ranked formats are `original`, `webp`, `avif` in some order. -/
theorem optimal_master (md5 : Str → Str) (fs : FS) (r : Str) (hr : r ≠ [])
    (info : OptimalInfo) (h : optimalOfRef md5 fs r = some info) :
    info.ranked.map (fun e => e.priority) = [1, 2, 3] ∧
    (info.ranked.filter (fun e => e.src = info.mainSrc)).length = 1 ∧
    (∃ e rest, info.ranked = e :: rest ∧ e.priority = 1 ∧ e.exi = true ∧
      e.src = info.mainSrc) ∧
    (info.ranked.map (fun e => e.fmt)).Perm [Fmt.original, Fmt.webp, Fmt.avif] := by
  have hfind : findImageVariants fs r ≠ [] := by
    intro hq
    rw [optimalOfRef, hq] at h
    simp [getOptimalImageInfo] at h
  rcases findImageVariants_shape fs r with hnil | ⟨sz, hfs, hshape⟩
  · exact absurd hnil hfind
  have process : ∀ (vs : List VariantEntry),
      findImageVariants fs r = (Fmt.original, r, sz) :: vs →
      info.mainSrc = ((isortLe sizeVarLe ((Fmt.original, r, sz) :: vs)).headD
          (Fmt.original, r, sz)).2.1 ∧
        info.ranked = assignPriorities (isortLe keyLe
          (allFormatsOf ((Fmt.original, r, sz) :: vs) r)) := by
    intro vs hvar
    rw [optimalOfRef, hvar, getOptimalImageInfo_cons md5 r sz vs hr] at h
    obtain rfl := (Option.some.inj h).symm
    exact ⟨rfl, rfl⟩
  rcases hshape with h1 | ⟨hcomps, h2 | h3 | h4⟩
  · -- shape 1: only the original exists
    obtain ⟨hmain, hranked⟩ := process [] h1
    have hmain_r : info.mainSrc = r := by rw [hmain]; rfl
    refine ⟨?_, ?_, ?_, ?_⟩
    · rw [hranked, assignPriorities_map_priority, isortLe_length, allFormatsOf_shape1]
      simp only [List.length_cons, List.length_nil]
      decide
    · rw [hranked, hmain_r, ranked_count_main, allFormatsOf_shape1]
      have hne1 : ¬ (potentialFormatPath r ['w', 'e', 'b', 'p'] = r) :=
        fun hq => orig_ne_potential_webp r hq.symm
      have hne2 : ¬ (potentialFormatPath r ['a', 'v', 'i', 'f'] = r) :=
        fun hq => orig_ne_potential_avif r hq.symm
      simp [List.countP_cons, hne1, hne2]
    · obtain ⟨e, rest, hers, hp, he, hsrc⟩ := ranked_head_generic _ _ _ rfl r
      rw [← hranked] at hers
      exact ⟨e, rest, hers, hp, he, by rw [hsrc, ← hmain]⟩
    · rw [hranked, assignPriorities_map_fmt]
      refine ((isortLe_perm keyLe _).map (fun f : FormatInfo => f.fmt)).trans ?_
      rw [allFormatsOf_shape1]
      simp only [List.map_cons, List.map_nil]
      decide
  · -- shape 2: original and a webp sibling
    obtain ⟨sw, hw, ha, h2⟩ := h2
    obtain ⟨hmain, hranked⟩ := process _ h2
    have hmem := headD_mem (l := (Fmt.original, r, sz) ::
      [(Fmt.webp, slashFix (renderPath (probePath (parsePath (pyLstripDotSlash r))
        (fmtName .webp))), sw)]) (by simp) (Fmt.original, r, sz)
    refine ⟨?_, ?_, ?_, ?_⟩
    · rw [hranked, assignPriorities_map_priority, isortLe_length, allFormatsOf_shape2]
      simp only [List.length_cons, List.length_nil]
      decide
    · rw [hranked, ranked_count_main, allFormatsOf_shape2]
      rcases List.mem_cons.mp hmem with he | he
      · have hm : info.mainSrc = r := by rw [hmain, he]
        have hne1 : ¬ (slashFix (renderPath (probePath (parsePath (pyLstripDotSlash r))
            (fmtName .webp))) = r) := fun hq => orig_ne_probe_webp r hq.symm
        have hne2 : ¬ (potentialFormatPath r ['a', 'v', 'i', 'f'] = r) :=
          fun hq => orig_ne_potential_avif r hq.symm
        rw [hm]
        simp [List.countP_cons, hne1, hne2]
      · simp only [List.mem_singleton] at he
        have hm : info.mainSrc = slashFix (renderPath (probePath
            (parsePath (pyLstripDotSlash r)) (fmtName .webp))) := by rw [hmain, he]
        have hne1 : ¬ (r = slashFix (renderPath (probePath (parsePath (pyLstripDotSlash r))
            (fmtName .webp)))) := orig_ne_probe_webp r
        have hne2 : ¬ (potentialFormatPath r ['a', 'v', 'i', 'f'] =
            slashFix (renderPath (probePath (parsePath (pyLstripDotSlash r))
              (fmtName .webp)))) :=
          fun hq => probe_webp_ne_potential_avif (parsePath (pyLstripDotSlash r)) r hq.symm
        rw [hm]
        simp [List.countP_cons, hne1, hne2]
    · obtain ⟨e, rest, hers, hp, he, hsrc⟩ := ranked_head_generic _ _ _ rfl r
      rw [← hranked] at hers
      exact ⟨e, rest, hers, hp, he, by rw [hsrc, ← hmain]⟩
    · rw [hranked, assignPriorities_map_fmt]
      refine ((isortLe_perm keyLe _).map (fun f : FormatInfo => f.fmt)).trans ?_
      rw [allFormatsOf_shape2]
      simp only [List.map_cons, List.map_nil]
      decide
  · -- shape 3: original and an avif sibling
    obtain ⟨sa, hw, ha, h3⟩ := h3
    obtain ⟨hmain, hranked⟩ := process _ h3
    have hmem := headD_mem (l := (Fmt.original, r, sz) ::
      [(Fmt.avif, slashFix (renderPath (probePath (parsePath (pyLstripDotSlash r))
        (fmtName .avif))), sa)]) (by simp) (Fmt.original, r, sz)
    refine ⟨?_, ?_, ?_, ?_⟩
    · rw [hranked, assignPriorities_map_priority, isortLe_length, allFormatsOf_shape3]
      simp only [List.length_cons, List.length_nil]
      decide
    · rw [hranked, ranked_count_main, allFormatsOf_shape3]
      rcases List.mem_cons.mp hmem with he | he
      · have hm : info.mainSrc = r := by rw [hmain, he]
        have hne1 : ¬ (slashFix (renderPath (probePath (parsePath (pyLstripDotSlash r))
            (fmtName .avif))) = r) := fun hq => orig_ne_probe_avif r hq.symm
        have hne2 : ¬ (potentialFormatPath r ['w', 'e', 'b', 'p'] = r) :=
          fun hq => orig_ne_potential_webp r hq.symm
        rw [hm]
        simp [List.countP_cons, hne1, hne2]
      · simp only [List.mem_singleton] at he
        have hm : info.mainSrc = slashFix (renderPath (probePath
            (parsePath (pyLstripDotSlash r)) (fmtName .avif))) := by rw [hmain, he]
        have hne1 : ¬ (r = slashFix (renderPath (probePath (parsePath (pyLstripDotSlash r))
            (fmtName .avif)))) := orig_ne_probe_avif r
        have hne2 : ¬ (potentialFormatPath r ['w', 'e', 'b', 'p'] =
            slashFix (renderPath (probePath (parsePath (pyLstripDotSlash r))
              (fmtName .avif)))) :=
          potential_webp_ne_probe_avif r (parsePath (pyLstripDotSlash r))
        rw [hm]
        simp [List.countP_cons, hne1, hne2]
    · obtain ⟨e, rest, hers, hp, he, hsrc⟩ := ranked_head_generic _ _ _ rfl r
      rw [← hranked] at hers
      exact ⟨e, rest, hers, hp, he, by rw [hsrc, ← hmain]⟩
    · rw [hranked, assignPriorities_map_fmt]
      refine ((isortLe_perm keyLe _).map (fun f : FormatInfo => f.fmt)).trans ?_
      rw [allFormatsOf_shape3]
      simp only [List.map_cons, List.map_nil]
      decide
  · -- shape 4: original, webp and avif all exist
    obtain ⟨sw, sa, hw, ha, h4⟩ := h4
    obtain ⟨hmain, hranked⟩ := process _ h4
    have hmem := headD_mem (l := (Fmt.original, r, sz) ::
      [(Fmt.webp, slashFix (renderPath (probePath (parsePath (pyLstripDotSlash r))
          (fmtName .webp))), sw),
        (Fmt.avif, slashFix (renderPath (probePath (parsePath (pyLstripDotSlash r))
          (fmtName .avif))), sa)]) (by simp) (Fmt.original, r, sz)
    refine ⟨?_, ?_, ?_, ?_⟩
    · rw [hranked, assignPriorities_map_priority, isortLe_length, allFormatsOf_shape4]
      simp only [List.length_cons, List.length_nil]
      decide
    · rw [hranked, ranked_count_main, allFormatsOf_shape4]
      rcases List.mem_cons.mp hmem with he | he
      · have hm : info.mainSrc = r := by rw [hmain, he]
        have hne1 : ¬ (slashFix (renderPath (probePath (parsePath (pyLstripDotSlash r))
            (fmtName .webp))) = r) := fun hq => orig_ne_probe_webp r hq.symm
        have hne2 : ¬ (slashFix (renderPath (probePath (parsePath (pyLstripDotSlash r))
            (fmtName .avif))) = r) := fun hq => orig_ne_probe_avif r hq.symm
        rw [hm]
        simp [List.countP_cons, hne1, hne2]
      · rcases List.mem_cons.mp he with he | he
        · have hm : info.mainSrc = slashFix (renderPath (probePath
              (parsePath (pyLstripDotSlash r)) (fmtName .webp))) := by rw [hmain, he]
          have hne1 : ¬ (r = slashFix (renderPath (probePath
              (parsePath (pyLstripDotSlash r)) (fmtName .webp)))) := orig_ne_probe_webp r
          have hne2 : ¬ (slashFix (renderPath (probePath (parsePath (pyLstripDotSlash r))
              (fmtName .avif))) = slashFix (renderPath (probePath
                (parsePath (pyLstripDotSlash r)) (fmtName .webp)))) :=
            fun hq => probe_webp_ne_probe_avif (parsePath (pyLstripDotSlash r))
              (parsePath (pyLstripDotSlash r)) hq.symm
          rw [hm]
          simp [List.countP_cons, hne1, hne2]
        · simp only [List.mem_singleton] at he
          have hm : info.mainSrc = slashFix (renderPath (probePath
              (parsePath (pyLstripDotSlash r)) (fmtName .avif))) := by rw [hmain, he]
          have hne1 : ¬ (r = slashFix (renderPath (probePath
              (parsePath (pyLstripDotSlash r)) (fmtName .avif)))) := orig_ne_probe_avif r
          have hne2 : ¬ (slashFix (renderPath (probePath (parsePath (pyLstripDotSlash r))
              (fmtName .webp))) = slashFix (renderPath (probePath
                (parsePath (pyLstripDotSlash r)) (fmtName .avif)))) :=
            probe_webp_ne_probe_avif (parsePath (pyLstripDotSlash r))
              (parsePath (pyLstripDotSlash r))
          rw [hm]
          simp [List.countP_cons, hne1, hne2]
    · obtain ⟨e, rest, hers, hp, he, hsrc⟩ := ranked_head_generic _ _ _ rfl r
      rw [← hranked] at hers
      exact ⟨e, rest, hers, hp, he, by rw [hsrc, ← hmain]⟩
    · rw [hranked, assignPriorities_map_fmt]
      refine ((isortLe_perm keyLe _).map (fun f : FormatInfo => f.fmt)).trans ?_
      rw [allFormatsOf_shape4]
      simp only [List.map_cons, List.map_nil]
      decide

/-! ## The claims -/

/-- C10: for every input reference path, the mapping returned by
`find_image_variants` is either empty or has `'original'` as its first key,
storing exactly the raw input reference string; any further entries are for
the sibling formats, never `'original'`. -/
theorem claim_c10 (fs : FS) (r : Str) :
    findImageVariants fs r = [] ∨
    ∃ sz rest, findImageVariants fs r = (Fmt.original, r, sz) :: rest ∧
      ∀ e ∈ rest, e.1 ≠ Fmt.original := by
  rcases findImageVariants_shape fs r with h | ⟨sz, hfs, hsh⟩
  · exact Or.inl h
  rcases hsh with h | ⟨hc, h | h | h⟩
  · exact Or.inr ⟨sz, [], h, by simp⟩
  · obtain ⟨sw, _, _, h⟩ := h
    refine Or.inr ⟨sz, _, h, ?_⟩
    intro e he
    rw [List.mem_singleton] at he
    rw [he]
    simp
  · obtain ⟨sa, _, _, h⟩ := h
    refine Or.inr ⟨sz, _, h, ?_⟩
    intro e he
    rw [List.mem_singleton] at he
    rw [he]
    simp
  · obtain ⟨sw, sa, _, _, h⟩ := h
    refine Or.inr ⟨sz, _, h, ?_⟩
    intro e he
    rcases List.mem_cons.mp he with he | he
    · rw [he]; simp
    · rw [List.mem_singleton] at he
      rw [he]
      simp

/-- C8: when the original image file does not exist, `find_image_variants`
returns the empty set (total function, no exception), and the HTML/PHP
rewriter consequently returns the matched tag unchanged, whatever the mode,
groups, or indentation. -/
theorem claim_c8 (fs : FS) (r : Str)
    (h : fs (parsePath (pyLstripDotSlash r)) = none) :
    findImageVariants fs r = [] ∧
    (∀ md5 m fullTag beforeSrc afterSrc attrIndent,
      replaceImg md5 fs m fullTag beforeSrc r afterSrc attrIndent = fullTag) := by
  have hfind : findImageVariants fs r = [] := by simp [findImageVariants, h]
  refine ⟨hfind, ?_⟩
  intro md5 m fullTag beforeSrc afterSrc attrIndent
  have hopt : optimalOfRef md5 fs r = none := by
    rw [optimalOfRef, hfind]
    rfl
  unfold replaceImg
  rw [hopt]
  split_ifs <;> rfl

theorem claim_c8_witness :
    findImageVariants (fun _ => none) "img/x.jpg".toList = [] ∧
    replaceImg idDigest (fun _ => none) { saveMode := .json, saveHashInAttribute := false }
      "<img src=\"img/x.jpg\">".toList [' '] "img/x.jpg".toList [] [] =
      "<img src=\"img/x.jpg\">".toList :=
  ⟨(claim_c8 (fun _ => none) "img/x.jpg".toList rfl).1,
   (claim_c8 (fun _ => none) "img/x.jpg".toList rfl).2 idDigest
     { saveMode := .json, saveHashInAttribute := false }
     "<img src=\"img/x.jpg\">".toList [' '] [] []⟩

/-- C7 counterexample: the claim says the hash normalization removes exactly
a leading `"./"` prefix, but `lstrip('./')` removes every leading `'.'` and
`'/'` character: on `"../img/photo.jpg"` the source feeds
`"img/photo.jpg"` to the digest while the claim's normalization keeps
`"../img/photo.jpg"`, so the sidecar key is the digest of a different
string. -/
theorem claim_c7_counterexample :
    getImageHashInput "../img/photo.jpg".toList ≠
      claimHashNormalize "../img/photo.jpg".toList ∧
    getImageHashInput "../img/photo.jpg".toList = "img/photo.jpg".toList ∧
    claimHashNormalize "../img/photo.jpg".toList = "../img/photo.jpg".toList := by
  decide

/-- C7 (amended): the string fed to the MD5 digest by `get_image_hash` is
the input with its maximal leading run of `'.'` and `'/'` characters removed
(Python `lstrip('./')` semantics, so in particular any leading `"./"`
prefixes) and backslashes then replaced by forward slashes. -/
theorem claim_c7_amended (p : Str) :
    ∃ junk core, p = junk ++ core ∧ (∀ c ∈ junk, dotSlash c = true) ∧
      (∀ x, core.head? = some x → dotSlash x = false) ∧
      getImageHashInput p = slashFix core := by
  obtain ⟨j, hj, hjall⟩ := dropWhile_append_decomp dotSlash p
  exact ⟨j, p.dropWhile dotSlash, hj, hjall,
    (fun x hx => clean_head_not_dotSlash hx), rfl⟩

/-- C5: in the inline-annotation persistence mode, a matched tag that
already carries a `data-webp-src`, `data-avif-src` or `data-original-src`
marker is returned unchanged by `replace_img`, so an already-annotated
element is never rewritten again. -/
theorem claim_c5 (md5 : Str → Str) (fs : FS) (m : Mode)
    (fullTag beforeSrc imagePath afterSrc attrIndent : Str)
    (hmode : shouldAddDataAttributes m = true)
    (hmark : hasInfix "data-webp-src=".toList fullTag = true ∨
      hasInfix "data-avif-src=".toList fullTag = true ∨
      hasInfix "data-original-src=".toList fullTag = true) :
    replaceImg md5 fs m fullTag beforeSrc imagePath afterSrc attrIndent = fullTag := by
  have hcond : (shouldAddDataAttributes m &&
      (hasInfix "data-webp-src=".toList fullTag ||
       hasInfix "data-avif-src=".toList fullTag ||
       hasInfix "data-original-src=".toList fullTag)) = true := by
    rw [hmode]
    simp only [Bool.true_and, Bool.or_eq_true]
    rcases hmark with h | h | h
    exacts [Or.inl (Or.inl h), Or.inl (Or.inr h), Or.inr h]
  unfold replaceImg
  by_cases h1 : endsWithCI imagePath ".svg".toList = true
  · rw [if_pos h1]
  · rw [if_neg h1, if_pos hcond]

theorem claim_c5_witness :
    shouldAddDataAttributes { saveMode := .dataAttrs, saveHashInAttribute := false } = true ∧
    hasInfix "data-webp-src=".toList
      "<img src=\"img/photo.jpg\" data-webp-src=\"x\">".toList = true ∧
    replaceImg idDigest fsA { saveMode := .dataAttrs, saveHashInAttribute := false }
      "<img src=\"img/photo.jpg\" data-webp-src=\"x\">".toList
      [' '] "img/photo.jpg".toList [] "    ".toList =
      "<img src=\"img/photo.jpg\" data-webp-src=\"x\">".toList :=
  ⟨by decide, by decide,
   claim_c5 idDigest fsA { saveMode := .dataAttrs, saveHashInAttribute := false }
     "<img src=\"img/photo.jpg\" data-webp-src=\"x\">".toList
     [' '] "img/photo.jpg".toList [] "    ".toList (by decide) (Or.inl (by decide))⟩

/-- C4 (Scenario A): with `img/photo.jpg` of 50000 bytes, a webp sibling
`img/webp/photo.webp` of 30000 bytes and no avif sibling, the ranking
chooses `main = img/webp/photo.webp` with priorities webp 1, original 2,
avif 3; the avif path is synthesized as `img/avif/photo.avif` (forward
slashes), marked non-existing (`none` models `float('inf')` / JSON null). -/
theorem claim_c4 (md5 : Str → Str) :
    (optimalOfRef md5 fsA "img/photo.jpg".toList).map
      (fun i => (i.mainSrc, i.ranked)) =
    some ("img/webp/photo.webp".toList,
      [{ fmt := Fmt.webp, src := "img/webp/photo.webp".toList, priority := 1
         exi := true, size := some 30000 },
       { fmt := Fmt.original, src := "img/photo.jpg".toList, priority := 2
         exi := true, size := some 50000 },
       { fmt := Fmt.avif, src := "img/avif/photo.avif".toList, priority := 3
         exi := false, size := none }]) := by
  rfl

/-- C1 counterexample (Scenario B, claim as stated is false): with no
siblings on disk the code gives the *original* priority 1, the synthesized
webp priority 2 and the synthesized avif priority 3 — the existing original
sorts before all non-existing entries, and among the non-existing entries
the stable sort keeps insertion order, which is webp before avif, not the
claimed AVIF-before-WebP precedence (and the original is first, not last). -/
theorem claim_c1_counterexample :
    (optimalOfRef idDigest fsB "img/photo.jpg".toList).map
      (fun i => (i.mainSrc, i.ranked.map (fun e => (e.fmt, e.priority, e.exi)))) =
      some ("img/photo.jpg".toList,
        [(Fmt.original, 1, true), (Fmt.webp, 2, false), (Fmt.avif, 3, false)]) ∧
    ¬ ((optimalOfRef idDigest fsB "img/photo.jpg".toList).map
        (fun i => i.ranked.map (fun e => (e.fmt, e.priority))) =
      some [(Fmt.avif, 1), (Fmt.webp, 2), (Fmt.original, 3)]) := by
  decide

/-- C1 (amended): when the original exists but no webp or avif sibling does,
`main` is the original path and the priorities are original 1, synthesized
webp 2, synthesized avif 3 (both synthesized entries marked non-existing
with infinite size); in general existing variants sort first ascending by
size and the non-existing ones follow in their insertion order, which is
WebP before AVIF. -/
theorem claim_c1_amended (md5 : Str → Str) (fs : FS) (r : Str) (sz : Nat)
    (hr : r ≠ [])
    (hfind : findImageVariants fs r = [(Fmt.original, r, sz)]) :
    (optimalOfRef md5 fs r).map (fun i => (i.mainSrc, i.ranked)) =
      some (r,
        [{ fmt := Fmt.original, src := r, priority := 1, exi := true, size := some sz },
         { fmt := Fmt.webp, src := potentialFormatPath r "webp".toList, priority := 2
           exi := false, size := none },
         { fmt := Fmt.avif, src := potentialFormatPath r "avif".toList, priority := 3
           exi := false, size := none }]) := by
  rw [optimalOfRef, hfind, getOptimalImageInfo_cons md5 r sz [] hr]
  rw [Option.map_some']
  rfl

theorem claim_c1_amended_witness :
    ("img/photo.jpg".toList ≠ ([] : Str)) ∧
    findImageVariants fsB "img/photo.jpg".toList =
      [(Fmt.original, "img/photo.jpg".toList, 50000)] ∧
    (optimalOfRef idDigest fsB "img/photo.jpg".toList).map
        (fun i => (i.mainSrc, i.ranked)) =
      some ("img/photo.jpg".toList,
        [{ fmt := Fmt.original, src := "img/photo.jpg".toList, priority := 1
           exi := true, size := some 50000 },
         { fmt := Fmt.webp, src := "img/webp/photo.webp".toList, priority := 2
           exi := false, size := none },
         { fmt := Fmt.avif, src := "img/avif/photo.avif".toList, priority := 3
           exi := false, size := none }]) :=
  ⟨by decide, by decide,
   claim_c1_amended idDigest fsB "img/photo.jpg".toList 50000 (by decide) (by decide)⟩

/-- C2: for every variant set the resolver passes to the ranker — any
reference with a nonempty path (the regexes only capture nonempty paths)
whose original file exists — the priorities are exactly 1, 2, 3 with no
duplicates or gaps (N = 3 known formats), and exactly one per-format entry
carries the chosen main path. -/
theorem claim_c2 (md5 : Str → Str) (fs : FS) (r : Str) (hr : r ≠ [])
    (info : OptimalInfo) (h : optimalOfRef md5 fs r = some info) :
    info.ranked.map (fun e => e.priority) = [1, 2, 3] ∧
    (info.ranked.filter (fun e => e.src = info.mainSrc)).length = 1 :=
  ⟨(optimal_master md5 fs r hr info h).1, (optimal_master md5 fs r hr info h).2.1⟩

theorem claim_c2_witness :
    ("img/photo.jpg".toList ≠ ([] : Str)) ∧
    ∃ info, optimalOfRef idDigest fsA "img/photo.jpg".toList = some info ∧
      info.ranked.map (fun e => e.priority) = [1, 2, 3] ∧
      (info.ranked.filter (fun e => e.src = info.mainSrc)).length = 1 := by
  refine ⟨by decide, ?_⟩
  cases hopt : optimalOfRef idDigest fsA "img/photo.jpg".toList with
  | none => exact absurd hopt (by decide)
  | some info =>
    exact ⟨info, rfl, claim_c2 idDigest fsA "img/photo.jpg".toList (by decide) info hopt⟩

/-- C3: the chosen main path is the path of the priority-1 entry, which is
always an existing variant; no non-existing (synthesized) entry ever carries
the main path. -/
theorem claim_c3 (md5 : Str → Str) (fs : FS) (r : Str) (hr : r ≠ [])
    (info : OptimalInfo) (h : optimalOfRef md5 fs r = some info) :
    (∃ e rest, info.ranked = e :: rest ∧ e.priority = 1 ∧ e.exi = true ∧
      e.src = info.mainSrc) ∧
    ∀ x ∈ info.ranked, x.exi = false → x.src ≠ info.mainSrc := by
  obtain ⟨hpri, hcount, ⟨e, rest, hers, hp, hexi, hsrc⟩, hperm⟩ :=
    optimal_master md5 fs r hr info h
  refine ⟨⟨e, rest, hers, hp, hexi, hsrc⟩, ?_⟩
  intro x hx hxexi hxsrc
  have hxe : x ≠ e := by
    intro hq
    rw [hq, hexi] at hxexi
    exact absurd hxexi (by simp)
  have hxrest : x ∈ rest := by
    rw [hers] at hx
    rcases List.mem_cons.mp hx with hq | hq
    · exact absurd hq hxe
    · exact hq
  have h2 : 2 ≤ (info.ranked.filter (fun e => e.src = info.mainSrc)).length := by
    rw [hers, List.filter_cons_of_pos (by simp [hsrc])]
    simp only [List.length_cons]
    have hpos : 0 < (rest.filter (fun e => e.src = info.mainSrc)).length := by
      rw [← List.countP_eq_length_filter]
      exact List.countP_pos_iff.mpr ⟨x, hxrest, by simp [hxsrc]⟩
    omega
  rw [hcount] at h2
  omega

theorem claim_c3_witness :
    ("img/photo.jpg".toList ≠ ([] : Str)) ∧
    ∃ info, optimalOfRef idDigest fsA "img/photo.jpg".toList = some info ∧
      (∃ e rest, info.ranked = e :: rest ∧ e.priority = 1 ∧ e.exi = true ∧
        e.src = info.mainSrc) ∧
      ∀ x ∈ info.ranked, x.exi = false → x.src ≠ info.mainSrc := by
  refine ⟨by decide, ?_⟩
  cases hopt : optimalOfRef idDigest fsA "img/photo.jpg".toList with
  | none => exact absurd hopt (by decide)
  | some info =>
    exact ⟨info, rfl, claim_c3 idDigest fsA "img/photo.jpg".toList (by decide) info hopt⟩

/-- The `data_attributes` dictionary as built by the ranker: the
`data-original-ext` entry first, followed by one src/priority pair per
ranked format in ranking order. -/
theorem optimal_dataAttributes (md5 : Str → Str) (fs : FS) (r : Str) (hr : r ≠ [])
    (info : OptimalInfo) (h : optimalOfRef md5 fs r = some info) :
    info.dataAttributes =
      ("data-original-ext".toList, info.origExt) :: rankedPairs info.ranked := by
  have hfind : findImageVariants fs r ≠ [] := by
    intro hq
    rw [optimalOfRef, hq] at h
    simp [getOptimalImageInfo] at h
  rcases findImageVariants_shape fs r with hnil | ⟨sz, hfs, hshape⟩
  · exact absurd hnil hfind
  have hvs : ∃ vs, findImageVariants fs r = (Fmt.original, r, sz) :: vs := by
    rcases hshape with h1 | ⟨hc, h2 | h3 | h4⟩
    · exact ⟨[], h1⟩
    · obtain ⟨sw, _, _, h2⟩ := h2
      exact ⟨_, h2⟩
    · obtain ⟨sa, _, _, h3⟩ := h3
      exact ⟨_, h3⟩
    · obtain ⟨sw, sa, _, _, h4⟩ := h4
      exact ⟨_, h4⟩
  obtain ⟨vs, hvar⟩ := hvs
  rw [optimalOfRef, hvar, getOptimalImageInfo_cons md5 r sz vs hr] at h
  obtain rfl := (Option.some.inj h).symm
  rfl

/-- C6 counterexample (claim as stated is false): on Scenario A the sorted
attribute list starts with `data-original-ext` — the non-src/non-priority
marker sorts with key `(0, 2)` before every `(priority, _)` key — rather
than being appended last as the claim requires. -/
theorem claim_c6_counterexample :
    (optimalOfRef idDigest fsA "img/photo.jpg".toList).map
        (fun i => sortAttrs i.dataAttributes) =
      some [("data-original-ext".toList, "jpg".toList),
        ("data-webp-src".toList, "img/webp/photo.webp".toList),
        ("data-webp-priority".toList, "1".toList),
        ("data-original-src".toList, "img/photo.jpg".toList),
        ("data-original-priority".toList, "2".toList),
        ("data-avif-src".toList, "img/avif/photo.avif".toList),
        ("data-avif-priority".toList, "3".toList)] ∧
    ¬ ((optimalOfRef idDigest fsA "img/photo.jpg".toList).map
        (fun i => (sortAttrs i.dataAttributes).getLast?.map Prod.fst) =
      some (some "data-original-ext".toList)) := by
  decide

set_option maxHeartbeats 1600000 in
/-- C6 (amended): when annotation is enabled the markers are emitted with
`data-image-hash` (when embedded) first, then `data-original-ext`, then one
src/priority pair per format ascending by priority with each src marker
immediately before its priority marker — the `sort_attrs` ordering leaves
the dictionary order unchanged, and non-src/non-priority markers come
first, not last. -/
theorem claim_c6_amended (md5 : Str → Str) (fs : FS) (r : Str) (hr : r ≠ [])
    (info : OptimalInfo) (h : optimalOfRef md5 fs r = some info) :
    info.dataAttributes =
      ("data-original-ext".toList, info.origExt) :: rankedPairs info.ranked ∧
    info.ranked.map (fun e => e.priority) = [1, 2, 3] ∧
    sortAttrs info.dataAttributes = info.dataAttributes ∧
    (∀ m : Mode, htmlMarkers m info =
      (if shouldSaveJson m && m.saveHashInAttribute
       then [("data-image-hash".toList, info.jsonHash)] else []) ++
      (if shouldAddDataAttributes m then sortAttrs info.dataAttributes else [])) ∧
    (∀ m : Mode, pugAttrsToAdd m info =
      (if shouldSaveJson m && m.saveHashInAttribute
       then [("data-image-hash".toList, info.jsonHash)] else []) ++
      (if shouldAddDataAttributes m then sortAttrs info.dataAttributes else [])) := by
  have hattrs := optimal_dataAttributes md5 fs r hr info h
  obtain ⟨hpri, -, -, hperm⟩ := optimal_master md5 fs r hr info h
  refine ⟨hattrs, hpri, ?_, fun m => rfl, fun m => rfl⟩
  have hlen : info.ranked.length = 3 := by
    have hq := congrArg List.length hpri
    simpa using hq
  obtain ⟨e1, e2, e3, hr3⟩ : ∃ e1 e2 e3, info.ranked = [e1, e2, e3] := by
    cases hm : info.ranked with
    | nil => rw [hm] at hlen; simp at hlen
    | cons e1 t1 =>
      cases t1 with
      | nil => rw [hm] at hlen; simp at hlen
      | cons e2 t2 =>
        cases t2 with
        | nil => rw [hm] at hlen; simp at hlen
        | cons e3 t3 =>
          cases t3 with
          | nil => exact ⟨e1, e2, e3, rfl⟩
          | cons e4 t4 => rw [hm] at hlen; simp at hlen
  rw [hr3] at hpri hperm
  simp only [List.map_cons, List.map_nil] at hpri hperm
  obtain ⟨hp1, hp2, hp3⟩ : e1.priority = 1 ∧ e2.priority = 2 ∧ e3.priority = 3 := by
    simpa using hpri
  rw [hattrs, hr3]
  simp only [rankedPairs, List.flatMap_cons, List.flatMap_nil, List.append_nil,
    List.cons_append, List.nil_append]
  rw [hp1, hp2, hp3]
  cases he1 : e1.fmt <;> cases he2 : e2.fmt <;> cases he3 : e3.fmt <;>
    first
      | (exfalso
         rw [he1, he2, he3] at hperm
         exact absurd hperm (by decide))
      | rfl

theorem claim_c6_amended_witness :
    ("img/photo.jpg".toList ≠ ([] : Str)) ∧
    ∃ info, optimalOfRef idDigest fsA "img/photo.jpg".toList = some info ∧
      info.dataAttributes =
        ("data-original-ext".toList, info.origExt) :: rankedPairs info.ranked ∧
      info.ranked.map (fun e => e.priority) = [1, 2, 3] ∧
      sortAttrs info.dataAttributes = info.dataAttributes := by
  refine ⟨by decide, ?_⟩
  cases hopt : optimalOfRef idDigest fsA "img/photo.jpg".toList with
  | none => exact absurd hopt (by decide)
  | some info =>
    have hh := claim_c6_amended idDigest fsA "img/photo.jpg".toList (by decide) info hopt
    exact ⟨info, rfl, hh.1, hh.2.1, hh.2.2.1⟩

/-- C9 counterexample (claim as stated is false): in sidecar-only mode
(`save_mode = 'json'`, no inline annotation) with hash embedding enabled,
the PUG rewriter *does* write a `data-image-hash` attribute — the branch
that skips attribute splicing requires JSON saving to be off as well, and
`attrs_to_add` then receives the hash marker.  Shown on a one-line block
over Scenario A; the marker is emitted whatever digest function is used. -/
theorem claim_c9_counterexample :
    processPugLines idDigest fsA { saveMode := .json, saveHashInAttribute := true }
      ["img(src=\"img/photo.jpg\")".toList] =
      ["img(src=\"img/webp/photo.webp\"".toList,
       "            data-image-hash=\"img/photo.jpg\"".toList,
       "            )".toList] ∧
    hasInfix "data-image-hash=".toList
      (joinLines (processPugLines idDigest fsA
        { saveMode := .json, saveHashInAttribute := true }
        ["img(src=\"img/photo.jpg\")".toList])) = true := by
  decide

/-- C9 (amended): in sidecar-only persistence mode the HTML/PHP rewriter
and the SCSS/CSS rewriter only substitute the visible path (or leave the
match unchanged), writing no markers; the PUG writer likewise adds no
attribute when hash embedding is disabled, but when hash embedding is
enabled it adds exactly one `data-image-hash` marker (and still no
per-format markers). -/
theorem claim_c9_amended :
    (∀ (md5 : Str → Str) (fs : FS) (m : Mode)
        (fullTag beforeSrc imagePath afterSrc attrIndent : Str),
      shouldAddDataAttributes m = false →
      (replaceImg md5 fs m fullTag beforeSrc imagePath afterSrc attrIndent = fullTag ∨
       ∃ info, optimalOfRef md5 fs imagePath = some info ∧
         replaceImg md5 fs m fullTag beforeSrc imagePath afterSrc attrIndent =
           pyReplace fullTag imagePath info.mainSrc)) ∧
    (∀ (md5 : Str → Str) (fs : FS) (fullMatch imagePath : Str),
      replaceUrl md5 fs fullMatch imagePath = fullMatch ∨
      ∃ info, optimalOfRef md5 fs imagePath = some info ∧
        replaceUrl md5 fs fullMatch imagePath =
          pyReplace fullMatch imagePath info.mainSrc) ∧
    (∀ (m : Mode) (info : OptimalInfo),
      shouldAddDataAttributes m = false → m.saveHashInAttribute = false →
      pugAttrsToAdd m info = []) ∧
    (∀ (m : Mode) (info : OptimalInfo),
      shouldAddDataAttributes m = false → shouldSaveJson m = true →
      m.saveHashInAttribute = true →
      pugAttrsToAdd m info = [("data-image-hash".toList, info.jsonHash)]) := by
  refine ⟨?_, ?_, ?_, ?_⟩
  · intro md5 fs m fullTag beforeSrc imagePath afterSrc attrIndent hmode
    unfold replaceImg
    by_cases h1 : endsWithCI imagePath ".svg".toList = true
    · rw [if_pos h1]
      exact Or.inl rfl
    · rw [if_neg h1]
      by_cases h2 : (shouldAddDataAttributes m &&
          (hasInfix "data-webp-src=".toList fullTag ||
           hasInfix "data-avif-src=".toList fullTag ||
           hasInfix "data-original-src=".toList fullTag)) = true
      · rw [if_pos h2]
        exact Or.inl rfl
      · rw [if_neg h2]
        cases hopt : optimalOfRef md5 fs imagePath with
        | none => exact Or.inl rfl
        | some info =>
          refine Or.inr ⟨info, rfl, ?_⟩
          rw [hmode]
          simp
  · intro md5 fs fullMatch imagePath
    unfold replaceUrl
    by_cases h1 : endsWithCI imagePath ".svg".toList = true
    · rw [if_pos h1]
      exact Or.inl rfl
    · rw [if_neg h1]
      cases hopt : optimalOfRef md5 fs imagePath with
      | none => exact Or.inl rfl
      | some info => exact Or.inr ⟨info, rfl, rfl⟩
  · intro m info hmode hhash
    unfold pugAttrsToAdd
    rw [hmode, hhash]
    simp
  · intro m info hmode hjson hhash
    unfold pugAttrsToAdd
    rw [hmode, hjson, hhash]
    simp

theorem claim_c9_amended_witness :
    shouldAddDataAttributes { saveMode := SaveMode.json, saveHashInAttribute := true } = false ∧
    shouldSaveJson { saveMode := SaveMode.json, saveHashInAttribute := true } = true ∧
    pugAttrsToAdd { saveMode := SaveMode.json, saveHashInAttribute := true }
      { mainSrc := [], origExt := [], dataAttributes := [], ranked := []
        jsonHash := "h".toList, origPathFixed := [] } =
      [("data-image-hash".toList, "h".toList)] ∧
    (replaceImg idDigest fsA { saveMode := SaveMode.json, saveHashInAttribute := true }
      "<img src=\"img/photo.jpg\">".toList [' '] "img/photo.jpg".toList [] [] =
      "<img src=\"img/photo.jpg\">".toList ∨
     ∃ info, optimalOfRef idDigest fsA "img/photo.jpg".toList = some info ∧
       replaceImg idDigest fsA { saveMode := SaveMode.json, saveHashInAttribute := true }
         "<img src=\"img/photo.jpg\">".toList [' '] "img/photo.jpg".toList [] [] =
         pyReplace "<img src=\"img/photo.jpg\">".toList "img/photo.jpg".toList
           info.mainSrc) :=
  ⟨by decide, by decide,
   claim_c9_amended.2.2.2 { saveMode := SaveMode.json, saveHashInAttribute := true }
     { mainSrc := [], origExt := [], dataAttributes := [], ranked := []
       jsonHash := "h".toList, origPathFixed := [] } rfl rfl rfl,
   claim_c9_amended.1 idDigest fsA { saveMode := SaveMode.json, saveHashInAttribute := true }
     "<img src=\"img/photo.jpg\">".toList [' '] "img/photo.jpg".toList [] [] rfl⟩
